import Mathlib

/-!
Verification development for the AI-Tutor retrieval-augmented tutoring core.

The Python services under `src/src/services` are shallowly embedded here:
Python `str` values are modelled as `List Char`, Python string methods
(`strip`, `split`, `upper`, `lower`, `startswith`, `in`) as executable
functions on `List Char` with the same semantics on the character set the
code manipulates, and the service entry points as pure functions over
explicit state (database rows, vector-store points, provider-call
counters).  UUIDs are modelled as `Nat` (all the code does with them is
compare `str(uuid)` values, and `str` is injective on UUIDs).
-/

set_option maxHeartbeats 1000000

abbrev Str := List Char

/-- Python `str.isspace` on the whitespace characters handled by `strip()`
(the ASCII whitespace set, which covers every character the services emit). -/
def pyIsSpace (c : Char) : Bool :=
  c == ' ' || c == '\t' || c == '\n' || c == '\r' || c == '\x0b' || c == '\x0c'

/-- Python `str.strip()`: drop whitespace from both ends. -/
def pstrip (s : Str) : Str :=
  ((s.dropWhile pyIsSpace).reverse.dropWhile pyIsSpace).reverse

/-- Python `str.upper()` (ASCII case mapping). -/
def pyUpper (s : Str) : Str := s.map Char.toUpper

/-- Python `str.lower()` (ASCII case mapping). -/
def pyLower (s : Str) : Str := s.map Char.toLower

/-- Python truthiness of an `Optional[str]`: `None` and `""` are falsy. -/
def optTruthy : Option Str → Bool
  | some s => !s.isEmpty
  | none => false

/-- Python `text.split("\n")`: split at every newline, keeping empty pieces. -/
def linesOf : Str → List Str
  | [] => [[]]
  | c :: rest =>
    if c = '\n' then [] :: linesOf rest
    else
      match linesOf rest with
      | [] => [[c]]
      | p :: ps => (c :: p) :: ps

/-- Python `text.split("\n\n")`: split at non-overlapping double newlines,
left to right, keeping empty pieces. -/
def splitNN : Str → List Str
  | [] => [[]]
  | '\n' :: '\n' :: rest => [] :: splitNN rest
  | c :: rest =>
    match splitNN rest with
    | [] => [[c]]
    | p :: ps => (c :: p) :: ps

/-- Python `sep.join(pieces)`. -/
def joinSep (sep : Str) : List Str → Str
  | [] => []
  | [x] => x
  | x :: y :: rest => x ++ sep ++ joinSep sep (y :: rest)

/-- Python `needle in hay` on strings: contiguous-substring test. -/
def hasSeg (needle : Str) : Str → Bool
  | [] => needle.isEmpty
  | c :: rest => List.isPrefixOf needle (c :: rest) || hasSeg needle rest

/-- Decimal rendering of a Nat, as Python `str(n)` / f-string interpolation. -/
def natToStr (n : Nat) : Str := Nat.toDigits 10 n

/-- Contiguous-segment (substring) relation on character lists. -/
def SubSeg (a b : Str) : Prop := ∃ u v, b = u ++ a ++ v

theorem seg_refl (a : Str) : SubSeg a a := ⟨[], [], by simp⟩

theorem seg_trans {a b c : Str} (h1 : SubSeg a b) (h2 : SubSeg b c) : SubSeg a c := by
  obtain ⟨u, v, rfl⟩ := h1
  obtain ⟨x, y, rfl⟩ := h2
  exact ⟨x ++ u, v ++ y, by simp⟩

theorem seg_append_left {a b : Str} (u : Str) (h : SubSeg a b) : SubSeg a (u ++ b) := by
  obtain ⟨x, y, rfl⟩ := h
  exact ⟨u ++ x, y, by simp⟩

theorem seg_append_right {a b : Str} (v : Str) (h : SubSeg a b) : SubSeg a (b ++ v) := by
  obtain ⟨x, y, rfl⟩ := h
  exact ⟨x, y ++ v, by simp⟩

theorem seg_of_append_left (a v : Str) : SubSeg a (a ++ v) := ⟨[], v, rfl⟩

theorem seg_of_append_right (u a : Str) : SubSeg a (u ++ a) := ⟨u, [], by simp⟩

theorem seg_nil_right {a : Str} (h : SubSeg a []) : a = [] := by
  obtain ⟨u, v, hv⟩ := h
  have hlen : a.length = 0 := by
    have := congrArg List.length hv
    simp at this
    omega
  exact List.eq_nil_of_length_eq_zero hlen

theorem seg_reverse {a b : Str} (h : SubSeg a b) : SubSeg a.reverse b.reverse := by
  obtain ⟨u, v, rfl⟩ := h
  exact ⟨v.reverse, u.reverse, by simp⟩

/-!
## Chunker (`src/services/chunker.py`)

`SlideAwareChunker` with its constructor parameters
(`min_chunk_chars = 1200`, `max_chunk_chars = 2400`,
`include_title_in_chunk = True` by default).  `raw_blocks` of
`SlideContent` is debugging data unused by the chunker and is omitted.
-/

structure SlideContent where
  slide_number : Nat
  title : Option Str
  text : Str
  bullet_points : List Str
deriving DecidableEq, Repr

structure ChunkData where
  chunk_index : Nat
  text : Str
  slide_number : Nat
  slide_title : Option Str
  session_id : Option Str
  assignment_allowed : Bool
deriving DecidableEq, Repr

structure SlideAwareChunker where
  min_chunk_chars : Nat
  max_chunk_chars : Nat
  include_title_in_chunk : Bool
deriving DecidableEq, Repr

/-- The constructor defaults: 1200 / 2400 chars, title included. -/
def defaultChunker : SlideAwareChunker := ⟨1200, 2400, true⟩

def bullet_markers : List Str :=
  [['•'], ['-'], ['–'], ['—'], ['*'], ['►'], ['▪'], ['○'], ['●']]

/-- `SlideAwareChunker._is_bullet_line`. -/
def is_bullet_line (line : Str) : Bool :=
  (match line with
   | c1 :: c2 :: _ => c1.isDigit && (c2 == '.' || c2 == ')' || c2 == ':')
   | _ => false)
  || bullet_markers.any (fun m => List.isPrefixOf m line)

/-- `SlideAwareChunker._build_context_prefix`:
`"[Slide N: Title]\n\n"`, or `"[Slide N]\n\n"` when the title is falsy. -/
def build_context_pre (slide : SlideContent) : Str :=
  (if optTruthy slide.title
   then ('[' :: ('S' :: ('l' :: ('i' :: ('d' :: ('e' :: (' ' :: natToStr slide.slide_number)))))))
        ++ [':', ' '] ++ slide.title.getD [] ++ [']']
   else ('[' :: ('S' :: ('l' :: ('i' :: ('d' :: ('e' :: (' ' :: natToStr slide.slide_number)))))))
        ++ [']'])
  ++ ['\n', '\n']

/-- Loop body of `SlideAwareChunker._split_preserving_bullets`:
strip each line, skip empties, group consecutive bullet lines, flush the
group at a non-bullet line. -/
def spbGo : List Str → List Str → List Str → List Str
  | [], group, res => res ++ (if group.isEmpty then [] else [joinSep ['\n'] group])
  | l :: rest, group, res =>
    let l2 := pstrip l
    if l2.isEmpty then spbGo rest group res
    else if is_bullet_line l2 then spbGo rest (group ++ [l2]) res
    else if group.isEmpty then spbGo rest [] (res ++ [l2])
    else spbGo rest [] (res ++ [joinSep ['\n'] group, l2])

/-- `SlideAwareChunker._split_preserving_bullets`. -/
def split_preserving_bullets (text : Str) : List Str :=
  spbGo (linesOf text) [] []

/-- Loop body of `SlideAwareChunker._split_into_paragraphs`. -/
def sipGo (cfg : SlideAwareChunker) : List Str → List Str → List Str
  | [], res => res
  | para :: rest, res =>
    let p := pstrip para
    if p.isEmpty then sipGo cfg rest res
    else if p.length ≤ cfg.max_chunk_chars then sipGo cfg rest (res ++ [p])
    else sipGo cfg rest (res ++ split_preserving_bullets p)

/-- `SlideAwareChunker._split_into_paragraphs`. -/
def split_into_paragraphs (cfg : SlideAwareChunker) (text : Str) : List Str :=
  sipGo cfg (splitNN text) []

/-- Loop body of `SlideAwareChunker._split_long_slide`: accumulate pieces
into `current`, flushing a `pstrip`-ped chunk when adding a piece would
exceed the window, then a final flush. -/
def slsGo (cfg : SlideAwareChunker) (slide : SlideContent) (ctxPre : Str)
    (sid : Option Str) (aa : Bool) : List Str → Str → Nat → List ChunkData
  | [], current, idx =>
    if (pstrip current).isEmpty then []
    else [⟨idx, pstrip current, slide.slide_number, slide.title, sid, aa⟩]
  | para :: rest, current, idx =>
    let p := pstrip para
    if p.isEmpty then slsGo cfg slide ctxPre sid aa rest current idx
    else
      let test := if current.isEmpty then p else current ++ ['\n', '\n'] ++ p
      if test.length > cfg.max_chunk_chars && !current.isEmpty then
        ⟨idx, pstrip current, slide.slide_number, slide.title, sid, aa⟩ ::
          slsGo cfg slide ctxPre sid aa rest
            (if cfg.include_title_in_chunk then ctxPre ++ p else p) (idx + 1)
      else slsGo cfg slide ctxPre sid aa rest test idx

/-- `SlideAwareChunker._split_long_slide`. -/
def split_long_slide (cfg : SlideAwareChunker) (slide : SlideContent) (ctxPre : Str)
    (start_index : Nat) (sid : Option Str) (aa : Bool) : List ChunkData :=
  slsGo cfg slide ctxPre sid aa (split_into_paragraphs cfg slide.text)
    (if cfg.include_title_in_chunk then ctxPre else []) start_index

/-- `SlideAwareChunker._chunk_slide`. -/
def chunk_slide (cfg : SlideAwareChunker) (slide : SlideContent) (start_index : Nat)
    (sid : Option Str) (aa : Bool) : List ChunkData :=
  let ctxPre := build_context_pre slide
  let full_text := pstrip slide.text
  if full_text.isEmpty then
    if optTruthy slide.title then
      [⟨start_index, pstrip ctxPre, slide.slide_number, slide.title, sid, aa⟩]
    else []
  else
    let total_text := if cfg.include_title_in_chunk then ctxPre ++ full_text else full_text
    if total_text.length ≤ cfg.max_chunk_chars then
      [⟨start_index, total_text, slide.slide_number, slide.title, sid, aa⟩]
    else split_long_slide cfg slide ctxPre start_index sid aa

/-- Loop body of `SlideAwareChunker.chunk_slides`: chunk indices continue
across slides. -/
def chunkSlidesGo (cfg : SlideAwareChunker) (sid : Option Str) (aa : Bool) :
    List SlideContent → Nat → List ChunkData
  | [], _ => []
  | s :: rest, idx =>
    let cs := chunk_slide cfg s idx sid aa
    cs ++ chunkSlidesGo cfg sid aa rest (idx + cs.length)

/-- `SlideAwareChunker.chunk_slides`. -/
def chunk_slides (cfg : SlideAwareChunker) (slides : List SlideContent)
    (sid : Option Str) (aa : Bool) : List ChunkData :=
  chunkSlidesGo cfg sid aa slides 0

/-!
## Contextual chunker

`ingestion.py` imports `ContextualSlideAwareChunker` from
`src.services.chunker` and the test scripts exercise it (constructor
parameters `context_sentences`, `max_context_chars`; emitted marker
`"[Previous context: ...]"`), but its definition is not present under
`src/`.  It is modelled here from the spec.
-/

/-- Python `text.split(sep)` for a single-character separator. -/
def splitCh (sep : Char) : Str → List Str
  | [] => [[]]
  | c :: rest =>
    if c = sep then [] :: splitCh sep rest
    else
      match splitCh sep rest with
      | [] => [[c]]
      | p :: ps => (c :: p) :: ps

/-- Modelled from the spec: `ContextualSlideAwareChunker`, the contextual
chunking variant whose class body is missing from `src/` (only its import
in `ingestion.py` and its test-script callers are present).  Constructor
parameters from the test scripts: `context_sentences`, `max_context_chars`
(invoked there with `2` and `150`). -/
structure ContextualSlideAwareChunker where
  base : SlideAwareChunker
  context_sentences : Nat
  max_context_chars : Nat
deriving DecidableEq, Repr

/-- Default contextual chunker (base chunker defaults, 2 sentences,
150-character context cap). -/
def defaultContextualChunker : ContextualSlideAwareChunker :=
  ⟨defaultChunker, 2, 150⟩

def prev_context_open : Str :=
  ['[', 'P', 'r', 'e', 'v', 'i', 'o', 'u', 's', ' ',
   'c', 'o', 'n', 't', 'e', 'x', 't', ':', ' ']

def prev_context_close : Str := [']', '\n', '\n']

/-- Modelled from the spec: the last `n` sentences of a text
(period-separated, stripped, empty sentences dropped). -/
def last_sentences (n : Nat) (text : Str) : Str :=
  joinSep ['.', ' ']
    ((((splitCh '.' text).map pstrip).filter (fun x => !x.isEmpty)).reverse.take n).reverse

/-- Modelled from the spec: the previous-context block prepended to a chunk —
the last `context_sentences` sentences of the preceding chunk's source
slide, wrapped in the `"[Previous context: ...]"` marker; the summary is
truncated so that the whole block stays within `max_context_chars`
(the spec requires that adding context never grows a chunk by more than
the summary cap). -/
def context_block (cfg : ContextualSlideAwareChunker) (prev_slide_text : Str) : Str :=
  let budget := cfg.max_context_chars - (prev_context_open.length + prev_context_close.length)
  prev_context_open
    ++ List.take budget (last_sentences cfg.context_sentences prev_slide_text)
    ++ prev_context_close

/-- The source slide text of a chunk, looked up by its slide number. -/
def slide_text_for (slides : List SlideContent) (n : Nat) : Str :=
  match slides.find? (fun s => s.slide_number == n) with
  | some s => s.text
  | none => []

/-- Modelled from the spec: walk the base chunks in document order,
prepending a previous-context block to every chunk except the first,
drawn from the immediately preceding chunk's source slide. -/
def ctxMapGo (cfg : ContextualSlideAwareChunker) (slides : List SlideContent) :
    Option ChunkData → List ChunkData → List ChunkData
  | _, [] => []
  | none, c :: rest => c :: ctxMapGo cfg slides (some c) rest
  | some prev, c :: rest =>
    ⟨c.chunk_index,
     context_block cfg (slide_text_for slides prev.slide_number) ++ c.text,
     c.slide_number, c.slide_title, c.session_id, c.assignment_allowed⟩
      :: ctxMapGo cfg slides (some c) rest

/-- Modelled from the spec: `ContextualSlideAwareChunker.chunk_slides` —
the base slide-aware chunking, with previous context prepended to every
chunk after the first in the document. -/
def contextual_chunk_slides (cfg : ContextualSlideAwareChunker)
    (slides : List SlideContent) (sid : Option Str) (aa : Bool) : List ChunkData :=
  ctxMapGo cfg slides none (chunk_slides cfg.base slides sid aa)

/-!
## RAG strategy selector (`src/services/rag_strategies.py`)
-/

inductive CourseType
  | micro
  | certification
  | standard
deriving DecidableEq, Repr

structure RAGStrategyConfig where
  course_type : CourseType
  total_chunks : Nat
  initial_top_k : Nat
  final_top_k : Nat
  use_reranking : Bool
  use_query_expansion : Bool
  use_hierarchical_filter : Bool
  enable_caching : Bool
  max_context_tokens : Nat
deriving DecidableEq, Repr

/-- `MicroCourseStrategy.get_config`. -/
def micro_get_config (total_chunks : Nat) : RAGStrategyConfig :=
  ⟨.micro, total_chunks, 5, 5, false, false, false, true, 2000⟩

/-- `CertificationCourseStrategy.get_config`. -/
def certification_get_config (total_chunks : Nat) : RAGStrategyConfig :=
  let initial_k := if total_chunks > 5000 then 20 else if total_chunks > 2000 then 15 else 10
  ⟨.certification, total_chunks, initial_k, 5, true, true, true, false, 4000⟩

/-- `StandardCourseStrategy.get_config`. -/
def standard_get_config (total_chunks : Nat) : RAGStrategyConfig :=
  let use_reranking := decide (total_chunks > 1000)
  ⟨.standard, total_chunks, if use_reranking then 10 else 5, 5, use_reranking,
   false, false, true, 3000⟩

/-- `RAGStrategySelector.get_strategy`: dispatch on the course type. -/
def get_strategy (course_type : CourseType) (total_chunks : Nat) : RAGStrategyConfig :=
  match course_type with
  | .micro => micro_get_config total_chunks
  | .certification => certification_get_config total_chunks
  | .standard => standard_get_config total_chunks

/-- `should_expand_query` of the three strategies: word count of the query
(Python `len(query.split())`, whitespace-separated nonempty words). -/
def word_count (q : Str) : Nat :=
  (((splitCh ' ' q).map pstrip).filter (fun x => !x.isEmpty)).length

def should_expand_query (course_type : CourseType) (q : Str) : Bool :=
  match course_type with
  | .micro => false
  | .certification => word_count q < 8
  | .standard => word_count q < 5

/-!
## Retrieval service (`src/services/retrieval.py`)

The Qdrant store is modelled as a list of points ordered by descending
similarity to the query at hand; `search` keeps the filter semantics exact
(a point is returned only if every must-condition holds on its payload)
and abstracts the similarity ordering.  Payload ids are `Nat` (the code
stores `str(uuid)` values; `str` is injective on UUIDs).  The call trace
counts embedding-provider and vector-store calls made by `retrieve`.
-/

structure VectorPayload where
  course_id : Nat
  document_id : Nat
  chunk_id : Nat
  session_id : Str
  slide_number : Option Nat
  slide_title : Str
  assignment_allowed : Bool
  text_preview : Str
deriving DecidableEq, Repr

structure VectorPoint where
  id : Nat
  score : Int
  payload : VectorPayload
deriving DecidableEq, Repr

/-- The three `FieldCondition`s `RetrievalService._build_filter` can emit. -/
inductive FieldCond
  | course_id_is (v : Nat)
  | assignment_allowed_is (v : Bool)
  | session_id_is (v : Str)
deriving DecidableEq, Repr

/-- `RetrievalService._build_filter`: must-match on `course_id`, plus
`assignment_allowed = true` when `exclude_assignments`, plus the optional
(truthy) session filter. -/
def build_filter (course_id : Nat) (exclude_assignments : Bool)
    (session_filter : Option Str) : List FieldCond :=
  [FieldCond.course_id_is course_id]
    ++ (if exclude_assignments then [FieldCond.assignment_allowed_is true] else [])
    ++ (if optTruthy session_filter then [FieldCond.session_id_is (session_filter.getD [])]
        else [])

def cond_holds (p : VectorPayload) : FieldCond → Bool
  | .course_id_is v => p.course_id == v
  | .assignment_allowed_is v => p.assignment_allowed == v
  | .session_id_is v => p.session_id == v

/-- Qdrant `client.search` with a must-filter: the store enforces every
condition server-side and returns at most `limit` points. -/
def qdrant_search (store : List VectorPoint) (conds : List FieldCond) (limit : Nat) :
    List VectorPoint :=
  (store.filter (fun pt => conds.all (cond_holds pt.payload))).take limit

structure RetrievedChunk where
  chunk_id : Nat
  document_id : Nat
  text_preview : Str
  score : Int
  slide_number : Option Nat
  slide_title : Str
  session_id : Str
deriving DecidableEq, Repr

/-- Hit-to-chunk transformation in `RetrievalService.retrieve` step 5. -/
def to_retrieved (pt : VectorPoint) : RetrievedChunk :=
  ⟨pt.payload.chunk_id, pt.payload.document_id, pt.payload.text_preview,
   pt.score, pt.payload.slide_number, pt.payload.slide_title, pt.payload.session_id⟩

structure RetrievalRequest where
  student_id : Nat
  course_id : Nat
  query : Str
  top_k : Nat
  exclude_assignments : Bool
  session_filter : Option Str
deriving DecidableEq, Repr

structure RetrievalResult where
  query : Str
  course_id : Nat
  student_id : Nat
  chunks : List RetrievedChunk
  total_found : Nat
  assignment_mode : Bool
deriving DecidableEq, Repr

/-- The environment `retrieve` runs against: the enrollment table and the
vector store (ordered by similarity to this request's query). -/
structure RetrievalCtx where
  enrollments : List (Nat × Nat)
  store : List VectorPoint
deriving DecidableEq, Repr

/-- `EnrollmentRepository.is_enrolled`. -/
def is_enrolled (ctx : RetrievalCtx) (student_id course_id : Nat) : Bool :=
  ctx.enrollments.contains (student_id, course_id)

inductive RetrievalErr
  | emptyQuery
  | accessDenied
deriving DecidableEq, Repr

/-- Embedding-provider and vector-store calls made during one `retrieve`. -/
structure CallTrace where
  embed_calls : Nat
  search_calls : Nat
deriving DecidableEq, Repr

inductive RetrievalOutcome
  | err (e : RetrievalErr) (tr : CallTrace)
  | ok (r : RetrievalResult) (tr : CallTrace)
deriving DecidableEq, Repr

/-- `RetrievalService.retrieve`: reject empty queries, then the enrollment
gate, then embed + filtered search + hit transformation. -/
def retrieve (ctx : RetrievalCtx) (req : RetrievalRequest) : RetrievalOutcome :=
  if (pstrip req.query).isEmpty then .err .emptyQuery ⟨0, 0⟩
  else if !is_enrolled ctx req.student_id req.course_id then .err .accessDenied ⟨0, 0⟩
  else
    let conds := build_filter req.course_id req.exclude_assignments req.session_filter
    let hits := qdrant_search ctx.store conds req.top_k
    .ok ⟨req.query, req.course_id, req.student_id, hits.map to_retrieved,
         (hits.map to_retrieved).length, req.exclude_assignments⟩ ⟨1, 1⟩

/-!
## Ingestion orchestrator (`src/services/ingestion.py`)

`ingest` is embedded as a pure transition on an explicit database state.
Environment inputs that the real pipeline obtains from collaborators are
parameters: the slides the parser would extract and the id the database
would assign to the new document.  `ProviderTrace` counts parser, chunker,
embedding and vector-store work performed by the call (zero on every early
return).  `USE_QDRANT` is taken as true (the production configuration).
-/

structure IngestionRequest where
  course_id : Nat
  title : Str
  source_uri : Str
  content_type : Str
  session_id : Option Str
  assignment_allowed : Bool
deriving DecidableEq, Repr

structure DocumentRow where
  id : Nat
  course_id : Nat
  source_uri : Str
deriving DecidableEq, Repr

structure ChunkRow where
  document_id : Nat
  course_id : Nat
  chunk : ChunkData
deriving DecidableEq, Repr

structure IngestDB where
  courses : List Nat
  documents : List DocumentRow
  chunk_rows : List ChunkRow
deriving DecidableEq, Repr

structure ProviderTrace where
  parse_calls : Nat
  chunk_calls : Nat
  embed_calls : Nat
  upsert_points : Nat
deriving DecidableEq, Repr

structure IngestionMetrics where
  document_id : Nat
  source_uri : Str
  slides_extracted : Nat
  chunks_created : Nat
  embeddings_generated : Nat
  total_characters : Nat
  success : Bool
  error : Option Str
deriving DecidableEq, Repr

inductive IngestOutcome
  | failed (db : IngestDB) (tr : ProviderTrace)
  | ok (metrics : IngestionMetrics) (db : IngestDB) (tr : ProviderTrace)
deriving DecidableEq, Repr

/-- `DocumentRepository.get_by_source_uri`: first document with the uri. -/
def get_by_source_uri (db : IngestDB) (uri : Str) : Option DocumentRow :=
  db.documents.find? (fun d => d.source_uri == uri)

def skip_marker : Str :=
  ('D' :: ('o' :: ('c' :: ('u' :: ('m' :: ('e' :: ('n' :: ('t' :: (' ' :: [])))))))))
    ++ ['a', 'l', 'r', 'e', 'a', 'd', 'y', ' ']
    ++ ['e', 'x', 'i', 's', 't', 's']

/-- `IngestionService.ingest` (contextual chunker, the default): validate
the course, idempotency check on `source_uri`, then
parse → chunk → create document → create chunk rows → embed → upsert. -/
def ingest (cfg : ContextualSlideAwareChunker) (db : IngestDB) (req : IngestionRequest)
    (parsed_slides : List SlideContent) (new_doc_id : Nat) : IngestOutcome :=
  if !db.courses.contains req.course_id then .failed db ⟨0, 0, 0, 0⟩
  else
    match get_by_source_uri db req.source_uri with
    | some doc =>
      .ok ⟨doc.id, req.source_uri, 0, 0, 0, 0, true, some skip_marker⟩ db ⟨0, 0, 0, 0⟩
    | none =>
      let cds := contextual_chunk_slides cfg parsed_slides req.session_id
        req.assignment_allowed
      let newdoc : DocumentRow := ⟨new_doc_id, req.course_id, req.source_uri⟩
      let rows : List ChunkRow := cds.map (fun cd => ⟨new_doc_id, req.course_id, cd⟩)
      .ok ⟨new_doc_id, req.source_uri, parsed_slides.length, cds.length, cds.length,
           (cds.map (fun c => c.text.length)).sum, true, none⟩
         ⟨db.courses, db.documents ++ [newdoc], db.chunk_rows ++ rows⟩
         ⟨1, 1, cds.length, cds.length⟩

/-- The chunker choice in `IngestionService.__init__`. -/
inductive IngestionChunkerChoice
  | contextual
  | basic
deriving DecidableEq, Repr

def select_chunker (use_contextual_chunking : Bool) : IngestionChunkerChoice :=
  if use_contextual_chunking then .contextual else .basic

/-- The `use_contextual_chunking` constructor default in `ingestion.py`. -/
def use_contextual_chunking_default : Bool := true

/-!
## Tutor answer service (`src/services/tutor.py`)

`SelfReflectiveTutorService.respond` / `respond_stream` are embedded as
pure functions of the request plus the two generation-provider responses:
the validation call's text (`none` models a raised exception, which the
code treats as "assume answerable") and the answer text (for the
streaming variant, the list of streamed fragments).  Conversation history
and the concrete prompt strings do not affect the claimed fields and are
not tracked.
-/

structure SourceRef where
  chunk_id : Nat
  relevance_score : Int
  slide_number : Option Nat
  slide_title : Str
  session_id : Str
deriving DecidableEq, Repr

/-- `TutorService._build_sources`. -/
def build_sources (chunks : List RetrievedChunk) : List SourceRef :=
  chunks.map (fun c => ⟨c.chunk_id, c.score, c.slide_number, c.slide_title, c.session_id⟩)

def assignment_keywords : List Str :=
  [['s', 'o', 'l', 'v', 'e'],
   ['s', 'o', 'l', 'u', 't', 'i', 'o', 'n'],
   ['a', 'n', 's', 'w', 'e', 'r', ' ', 't', 'h', 'i', 's'],
   ['c', 'o', 'm', 'p', 'l', 'e', 't', 'e', ' ', 't', 'h', 'i', 's'],
   ['w', 'r', 'i', 't', 'e', ' ', 't', 'h', 'e', ' ', 'c', 'o', 'd', 'e'],
   ['i', 'm', 'p', 'l', 'e', 'm', 'e', 'n', 't'],
   ['h', 'o', 'm', 'e', 'w', 'o', 'r', 'k'],
   ['a', 's', 's', 'i', 'g', 'n', 'm', 'e', 'n', 't'],
   ['q', 'u', 'i', 'z', ' ', 'a', 'n', 's', 'w', 'e', 'r'],
   ['t', 'e', 's', 't', ' ', 'a', 'n', 's', 'w', 'e', 'r'],
   ['w', 'h', 'a', 't', ' ', 'i', 's', ' ', 't', 'h', 'e', ' ', 'a', 'n', 's', 'w', 'e', 'r'],
   ['g', 'i', 'v', 'e', ' ', 'm', 'e', ' ', 't', 'h', 'e', ' ', 'a', 'n', 's', 'w', 'e', 'r'],
   ['d', 'o', ' ', 't', 'h', 'i', 's', ' ', 'f', 'o', 'r', ' ', 'm', 'e']]

/-- `TutorService._detect_assignment_question`: keyword substring search
on the lowercased question. -/
def detect_assignment_question (question : Str) : Bool :=
  assignment_keywords.any (fun kw => hasSeg kw (pyLower question))

def yes_token : Str := ['Y', 'E', 'S']

/-- The validation classification in `SelfReflectiveTutorService`:
`validation_response.strip().upper().startswith("YES")`, with a raised
validation call (`none`) defaulting to answerable. -/
def validation_can_answer (validation_response : Option Str) : Bool :=
  match validation_response with
  | none => true
  | some s => List.isPrefixOf yes_token (pyUpper (pstrip s))

def confidence_validated : Str := ['v', 'a', 'l', 'i', 'd', 'a', 't', 'e', 'd']

def confidence_general : Str :=
  ['g', 'e', 'n', 'e', 'r', 'a', 'l', '_',
   'k', 'n', 'o', 'w', 'l', 'e', 'd', 'g', 'e']

structure TutorRequest where
  student_id : Nat
  course_id : Nat
  question : Str
  retrieval_result : RetrievalResult
  response_mode : Str
deriving DecidableEq, Repr

structure TutorResponse where
  answer : Str
  sources : List SourceRef
  was_redirected : Bool
  confidence : Str
  confidence_score : Nat
deriving DecidableEq, Repr

/-- `SelfReflectiveTutorService.respond`: validate, then always answer —
from course context when validation passed and chunks exist, otherwise
from general knowledge (the old rejecting `no_context` branch is
commented out in the source). -/
def respond (req : TutorRequest) (validation_response : Option Str)
    (llm_answer : Str) : TutorResponse :=
  let can_answer := validation_can_answer validation_response
  let has_course_context := can_answer && !req.retrieval_result.chunks.isEmpty
  let sources := build_sources req.retrieval_result.chunks
  let conf := if has_course_context then confidence_validated else confidence_general
  let score := if has_course_context then min 100 (sources.length * 20 + 40) else 60
  ⟨llm_answer, sources, detect_assignment_question req.question, conf, score⟩

inductive StreamEvent
  | metadata (sources : List SourceRef) (confidence : Str) (confidence_score : Nat)
      (chunks_used : Nat) (was_redirected : Bool)
  | text_chunk (data : Str)
  | done (response_length : Nat)
deriving DecidableEq, Repr

/-- `SelfReflectiveTutorService.respond_stream`: the metadata event
(sources and confidence, computed exactly as in `respond`) is yielded
before any text fragment, then the fragments, then the done event. -/
def respond_stream (req : TutorRequest) (validation_response : Option Str)
    (answer_chunks : List Str) : List StreamEvent :=
  let can_answer := validation_can_answer validation_response
  let has_course_context := can_answer && !req.retrieval_result.chunks.isEmpty
  let sources := build_sources req.retrieval_result.chunks
  let conf := if has_course_context then confidence_validated else confidence_general
  let score := if has_course_context then min 100 (sources.length * 20 + 40) else 60
  StreamEvent.metadata sources conf score sources.length
      (detect_assignment_question req.question)
    :: (answer_chunks.map StreamEvent.text_chunk
        ++ [StreamEvent.done answer_chunks.flatten.length])

/-!
## Claim C7 — strategy selector policy table
-/

/-- C7: the strategy selector is a pure function of
`(course_type, total_chunks)` implementing the policy table: micro (small)
gives `5/5` with rerank, expansion and hierarchical filter off;
certification (large) scales the candidate count `10/15/20` at the
`2000`/`5000` thresholds with final count 5 and rerank and expansion on;
standard (medium) gives candidates `10` above `1000` chunks else `5`,
final count 5, rerank only above `1000`, expansion off; in particular
`strategy(large, 6000).candidate_count = 20`,
`strategy(small, 100).use_rerank = false`,
`strategy(medium, 1500).use_rerank = true`. -/
theorem strategy_selector_policy_table :
    (∀ n, (get_strategy .micro n).initial_top_k = 5 ∧
      (get_strategy .micro n).final_top_k = 5 ∧
      (get_strategy .micro n).use_reranking = false ∧
      (get_strategy .micro n).use_query_expansion = false ∧
      (get_strategy .micro n).use_hierarchical_filter = false) ∧
    (∀ n, (get_strategy .certification n).final_top_k = 5 ∧
      (get_strategy .certification n).use_reranking = true ∧
      (get_strategy .certification n).use_query_expansion = true ∧
      (n ≤ 2000 → (get_strategy .certification n).initial_top_k = 10) ∧
      (2000 < n → n ≤ 5000 → (get_strategy .certification n).initial_top_k = 15) ∧
      (5000 < n → (get_strategy .certification n).initial_top_k = 20)) ∧
    (∀ n, (get_strategy .standard n).final_top_k = 5 ∧
      (get_strategy .standard n).use_query_expansion = false ∧
      (1000 < n → (get_strategy .standard n).initial_top_k = 10 ∧
        (get_strategy .standard n).use_reranking = true) ∧
      (n ≤ 1000 → (get_strategy .standard n).initial_top_k = 5 ∧
        (get_strategy .standard n).use_reranking = false)) ∧
    (get_strategy .certification 6000).initial_top_k = 20 ∧
    (get_strategy .micro 100).use_reranking = false ∧
    (get_strategy .standard 1500).use_reranking = true := by
  refine ⟨fun n => ?_, fun n => ?_, fun n => ?_, by decide, by decide, by decide⟩
  · simp [get_strategy, micro_get_config]
  · refine ⟨rfl, rfl, rfl, ?_, ?_, ?_⟩
    · intro h
      have h1 : ¬ n > 5000 := by omega
      have h2 : ¬ n > 2000 := by omega
      simp [get_strategy, certification_get_config, h1, h2]
    · intro h h2
      have h1 : ¬ n > 5000 := by omega
      simp [get_strategy, certification_get_config, h1, h]
    · intro h
      simp [get_strategy, certification_get_config, h]
  · refine ⟨rfl, rfl, ?_, ?_⟩
    · intro h
      simp [get_strategy, standard_get_config, h]
    · intro h
      have h1 : ¬ (1000 < n) := by omega
      simp [get_strategy, standard_get_config, h1]

/-- Witness for C7 at the threshold inputs. -/
theorem strategy_selector_policy_table_witness :
    (get_strategy .certification 1500).initial_top_k = 10 ∧
    (get_strategy .certification 3000).initial_top_k = 15 ∧
    (get_strategy .certification 6000).initial_top_k = 20 ∧
    (get_strategy .standard 1500).use_reranking = true ∧
    (get_strategy .standard 800).use_reranking = false :=
  ⟨(strategy_selector_policy_table.2.1 1500).2.2.2.1 (by omega),
   (strategy_selector_policy_table.2.1 3000).2.2.2.2.1 (by omega) (by omega),
   (strategy_selector_policy_table.2.1 6000).2.2.2.2.2 (by omega),
   ((strategy_selector_policy_table.2.2.1 1500).2.2.1 (by omega)).2,
   ((strategy_selector_policy_table.2.2.1 800).2.2.2 (by omega)).2⟩

/-!
## Claim C9 — validation YES classification
-/

theorem isPrefixOf_iff_exists (a : Str) : ∀ b : Str,
    List.isPrefixOf a b = true ↔ ∃ t, b = a ++ t := by
  induction a with
  | nil => intro b; simp [List.isPrefixOf]
  | cons c a ih =>
    intro b
    cases b with
    | nil =>
      simp [List.isPrefixOf]
    | cons d b =>
      simp only [List.isPrefixOf, Bool.and_eq_true, beq_iff_eq, ih b, List.cons_append,
        List.cons.injEq]
      constructor
      · rintro ⟨rfl, t, rfl⟩; exact ⟨t, rfl, rfl⟩
      · rintro ⟨t, rfl, rfl⟩; exact ⟨rfl, t, rfl⟩

/-- C9 counterexample: the generation response `"yes"` does not literally
begin with `"YES"`, yet the validation step classifies it as sufficient
(the code strips and uppercases before the prefix test). -/
theorem validation_yes_literal_counterexample :
    validation_can_answer (some ['y', 'e', 's']) = true ∧
    List.isPrefixOf yes_token ['y', 'e', 's'] = false := by decide

/-- C9 (amended): a generation response is classified as sufficient exactly
when, after stripping surrounding whitespace and uppercasing, it begins
with `"YES"` — a case-insensitive, whitespace-tolerant prefix match rather
than a literal one. -/
theorem validation_yes_prefix_match (s : Str) :
    validation_can_answer (some s) = true ↔
      ∃ rest, pyUpper (pstrip s) = yes_token ++ rest := by
  simp only [validation_can_answer, isPrefixOf_iff_exists]

/-- Witness for C9 (amended) at `" yes!"`. -/
theorem validation_yes_prefix_match_witness :
    validation_can_answer (some [' ', 'y', 'e', 's', '!']) = true :=
  (validation_yes_prefix_match [' ', 'y', 'e', 's', '!']).mpr ⟨['!'], by decide⟩

/-!
## Claims C3 and C10 — confidence scoring
-/

def exEmptyChunksRequest : TutorRequest :=
  ⟨1, 1, ['h', 'i'], ⟨['h', 'i'], 1, 1, [], 0, true⟩, []⟩

def exOneChunkRequest : TutorRequest :=
  ⟨1, 1, ['h', 'i'], ⟨['h', 'i'], 1, 1, [⟨1, 1, [], 1, none, [], []⟩], 1, true⟩, []⟩

/-- C3 counterexample: a response whose validation step answered `"NO"`
gets `confidence_score = 60`, not `0` — the rejecting `no_context` branch
is commented out and replaced by a general-knowledge fallback. -/
theorem confidence_zero_counterexample :
    validation_can_answer (some ['N', 'O']) = false ∧
    (respond exEmptyChunksRequest (some ['N', 'O']) ['o', 'k']).confidence_score = 60 ∧
    (respond exEmptyChunksRequest (some ['N', 'O']) ['o', 'k']).confidence_score ≠ 0 := by
  decide

/-- C3 (amended): `confidence_score` always lies in `[0, 100]` (it is a
natural number bounded by 100) and is never `0`; a response whose
validation step answered NO is served as a general-knowledge answer with
`confidence_score = 60` instead of a zero-score no-context response. -/
theorem confidence_bounds_amended (req : TutorRequest) (vresp : Option Str) (ans : Str) :
    (respond req vresp ans).confidence_score ≤ 100 ∧
    (respond req vresp ans).confidence_score ≠ 0 ∧
    (validation_can_answer vresp = false →
      (respond req vresp ans).confidence = confidence_general ∧
      (respond req vresp ans).confidence_score = 60) := by
  simp only [respond]
  by_cases h : (validation_can_answer vresp && !req.retrieval_result.chunks.isEmpty) = true
  · rw [h]
    simp only [eq_self_iff_true, if_true]
    refine ⟨by omega, by omega, ?_⟩
    intro hv
    rw [hv] at h
    simp at h
  · rw [Bool.not_eq_true] at h
    rw [h]
    simp only [Bool.false_eq_true, if_false]
    exact ⟨by omega, by omega, fun _ => ⟨trivial, trivial⟩⟩

/-- Witness for C3 (amended) at a concrete NO validation. -/
theorem confidence_bounds_amended_witness :
    (respond exEmptyChunksRequest (some ['N', 'O']) ['o', 'k']).confidence
      = confidence_general :=
  ((confidence_bounds_amended exEmptyChunksRequest (some ['N', 'O']) ['o', 'k']).2.2
    (by decide)).1

/-- C10: in both `respond` and `respond_stream`, a general-knowledge answer
carries `confidence_score = 60` and a validated answer carries
`min(100, 20 * source_count + 40)` with at least one source; hence the
score always lies in `[60, 100]` and `0` is unreachable; the streaming
variant emits the same score in its leading metadata event. -/
theorem confidence_score_formula (req : TutorRequest) (vresp : Option Str)
    (ans : Str) (frags : List Str) :
    ((respond req vresp ans).confidence = confidence_general ∨
      (respond req vresp ans).confidence = confidence_validated) ∧
    ((respond req vresp ans).confidence = confidence_general →
      (respond req vresp ans).confidence_score = 60) ∧
    ((respond req vresp ans).confidence = confidence_validated →
      (respond req vresp ans).confidence_score
          = min 100 ((respond req vresp ans).sources.length * 20 + 40) ∧
      1 ≤ (respond req vresp ans).sources.length) ∧
    60 ≤ (respond req vresp ans).confidence_score ∧
    (respond req vresp ans).confidence_score ≤ 100 ∧
    (respond req vresp ans).confidence_score ≠ 0 ∧
    (respond_stream req vresp frags).head? =
      some (StreamEvent.metadata (respond req vresp ans).sources
        (respond req vresp ans).confidence (respond req vresp ans).confidence_score
        (respond req vresp ans).sources.length (respond req vresp ans).was_redirected) := by
  have hne : confidence_general ≠ confidence_validated := by decide
  simp only [respond, respond_stream]
  by_cases h : (validation_can_answer vresp && !req.retrieval_result.chunks.isEmpty) = true
  · rw [h]
    simp only [eq_self_iff_true, if_true, List.head?_cons]
    have hchunks : req.retrieval_result.chunks.isEmpty = false := by
      rcases Bool.and_eq_true _ _ |>.mp h with ⟨_, h2⟩
      simpa using h2
    have hlen : 1 ≤ req.retrieval_result.chunks.length := by
      cases hc : req.retrieval_result.chunks with
      | nil => rw [hc] at hchunks; simp at hchunks
      | cons a l => simp [hc]
    refine ⟨Or.inr trivial, fun hc => absurd hc.symm hne, fun _ => ⟨trivial, ?_⟩, ?_,
      by omega, by omega, trivial⟩
    · simpa [build_sources] using hlen
    · have : 1 ≤ (build_sources req.retrieval_result.chunks).length := by
        simpa [build_sources] using hlen
      omega
  · rw [Bool.not_eq_true] at h
    rw [h]
    simp only [Bool.false_eq_true, if_false, List.head?_cons]
    exact ⟨Or.inl trivial, fun _ => trivial, fun hc => absurd hc hne, by omega, by omega,
      by omega, trivial⟩

/-- Witness for C10: a validated answer with one source scores
`min(100, 60) = 60`, a NO-validated answer scores `60`. -/
theorem confidence_score_formula_witness :
    (respond exOneChunkRequest (some yes_token) ['o', 'k']).confidence_score
        = min 100 ((respond exOneChunkRequest (some yes_token) ['o', 'k']).sources.length * 20 + 40) ∧
    1 ≤ (respond exOneChunkRequest (some yes_token) ['o', 'k']).sources.length ∧
    (respond exEmptyChunksRequest (some ['N', 'O']) ['n', 'o']).confidence_score = 60 := by
  have h1 := confidence_score_formula exOneChunkRequest (some yes_token) ['o', 'k'] []
  have h2 := confidence_score_formula exEmptyChunksRequest (some ['N', 'O']) ['n', 'o'] []
  exact ⟨(h1.2.2.1 (by decide)).1, (h1.2.2.1 (by decide)).2, h2.2.1 (by decide)⟩

/-!
## Claim C1 — enrollment gate
-/

def exEmptyCtx : RetrievalCtx := ⟨[], []⟩

def exEmptyQueryRequest : RetrievalRequest := ⟨1, 2, [], 5, true, none⟩

/-- C1 counterexample: a request from a non-enrolled actor whose query is
empty fails with the invalid-input error, not access-denied — the empty
query check runs before the enrollment gate. -/
theorem enrollment_gate_counterexample :
    is_enrolled exEmptyCtx 1 2 = false ∧
    retrieve exEmptyCtx exEmptyQueryRequest = .err .emptyQuery ⟨0, 0⟩ ∧
    RetrievalErr.emptyQuery ≠ RetrievalErr.accessDenied := by decide

/-- C1 (amended): for every retrieval request whose query is non-empty
after stripping whitespace and whose actor is not enrolled in the
requested course, `retrieve` fails with access-denied having made zero
embedding calls and zero vector-store search calls; for enrolled actors
access-denied is never raised, for any query. -/
theorem enrollment_gate_amended (ctx : RetrievalCtx) (req : RetrievalRequest) :
    ((pstrip req.query).isEmpty = false →
      is_enrolled ctx req.student_id req.course_id = false →
      retrieve ctx req = .err .accessDenied ⟨0, 0⟩) ∧
    (is_enrolled ctx req.student_id req.course_id = true →
      ∀ tr, retrieve ctx req ≠ .err .accessDenied tr) := by
  constructor
  · intro hq he
    simp only [retrieve, hq, he, Bool.false_eq_true, if_false, Bool.not_false, if_true]
  · intro he tr
    simp only [retrieve, he, Bool.not_true]
    by_cases hq : (pstrip req.query).isEmpty = true
    · simp only [hq, if_true]
      intro hcontra
      exact absurd (RetrievalOutcome.err.injEq .. ▸ congrArg id hcontra) (by simp)
    · simp only [Bool.not_eq_true] at hq
      simp only [hq, Bool.false_eq_true, if_false]
      intro hcontra
      exact RetrievalOutcome.noConfusion hcontra

/-- Witness for C1 (amended): a non-enrolled actor with a non-empty query
is denied with zero provider calls; an enrolled actor is not denied. -/
theorem enrollment_gate_amended_witness :
    retrieve exEmptyCtx ⟨1, 2, ['h', 'i'], 5, true, none⟩ = .err .accessDenied ⟨0, 0⟩ ∧
    ∀ tr, retrieve ⟨[(1, 2)], []⟩ ⟨1, 2, ['h', 'i'], 5, true, none⟩ ≠ .err .accessDenied tr :=
  ⟨(enrollment_gate_amended exEmptyCtx ⟨1, 2, ['h', 'i'], 5, true, none⟩).1
      (by decide) (by decide),
   (enrollment_gate_amended ⟨[(1, 2)], []⟩ ⟨1, 2, ['h', 'i'], 5, true, none⟩).2 (by decide)⟩

/-!
## Claim C2 — tenant isolation and assignment-safety filter
-/

/-- C2: the filter pushed to the vector-store search always contains the
must-match condition on the request's `course_id`, and contains the
`assignment_allowed = true` must-match exactly when `exclude_assignments`
is set; consequently every chunk returned by `retrieve` is derived from a
stored point whose payload `course_id` equals the request's course (so a
request scoped to course A never returns a chunk indexed under B ≠ A),
and under `exclude_assignments` that point has `assignment_allowed`. -/
theorem tenant_isolation_filter (ctx : RetrievalCtx) (req : RetrievalRequest) :
    (FieldCond.course_id_is req.course_id)
        ∈ build_filter req.course_id req.exclude_assignments req.session_filter ∧
    ((FieldCond.assignment_allowed_is true)
        ∈ build_filter req.course_id req.exclude_assignments req.session_filter
      ↔ req.exclude_assignments = true) ∧
    (∀ r tr, retrieve ctx req = .ok r tr →
      ∀ c ∈ r.chunks, ∃ pt ∈ ctx.store,
        to_retrieved pt = c ∧ pt.payload.course_id = req.course_id ∧
        (req.exclude_assignments = true → pt.payload.assignment_allowed = true)) := by
  refine ⟨?_, ?_, ?_⟩
  · simp [build_filter]
  · by_cases he : req.exclude_assignments = true
    · by_cases hs : optTruthy req.session_filter = true
      · simp [build_filter, he, hs]
      · rw [Bool.not_eq_true] at hs
        simp [build_filter, he, hs]
    · rw [Bool.not_eq_true] at he
      by_cases hs : optTruthy req.session_filter = true
      · simp [build_filter, he, hs]
      · rw [Bool.not_eq_true] at hs
        simp [build_filter, he, hs]
  · intro r tr hret c hc
    have hmem : ∀ pt, pt ∈ qdrant_search ctx.store
        (build_filter req.course_id req.exclude_assignments req.session_filter)
        req.top_k →
        pt ∈ ctx.store ∧ pt.payload.course_id = req.course_id ∧
          (req.exclude_assignments = true → pt.payload.assignment_allowed = true) := by
      intro pt hpt
      have hf := List.mem_of_mem_take hpt
      have hstore := List.mem_of_mem_filter hf
      have hconds := List.of_mem_filter hf
      rw [List.all_eq_true] at hconds
      have hcourse := hconds (FieldCond.course_id_is req.course_id)
        (by simp [build_filter])
      have hcourse2 : pt.payload.course_id = req.course_id := by
        simpa [cond_holds] using hcourse
      refine ⟨hstore, hcourse2, ?_⟩
      intro he
      have hassign := hconds (FieldCond.assignment_allowed_is true)
        (by simp [build_filter, he])
      simpa [cond_holds] using hassign
    revert hc
    simp only [retrieve] at hret
    by_cases hq : (pstrip req.query).isEmpty = true
    · simp [hq] at hret
    · simp only [Bool.not_eq_true] at hq
      by_cases he : is_enrolled ctx req.student_id req.course_id = true
      · simp only [hq, Bool.false_eq_true, if_false, he, Bool.not_true,
          if_false] at hret
        rcases RetrievalOutcome.ok.injEq .. ▸ hret with ⟨hr, _⟩
        intro hc
        rw [← hr] at hc
        simp only [List.mem_map] at hc
        obtain ⟨pt, hpt, rfl⟩ := hc
        obtain ⟨h1, h2, h3⟩ := hmem pt hpt
        exact ⟨pt, h1, rfl, h2, h3⟩
      · simp only [Bool.not_eq_true] at he
        simp [hq, he] at hret

def exStoreTwoCourses : List VectorPoint :=
  [⟨1, 9, ⟨1, 1, 11, [], none, [], true, []⟩⟩,
   ⟨2, 8, ⟨2, 1, 22, [], none, [], true, []⟩⟩]

def exCtxTwoCourses : RetrievalCtx := ⟨[(1, 1)], exStoreTwoCourses⟩

def exReqCourseOne : RetrievalRequest := ⟨1, 1, ['q'], 5, true, none⟩

def exRetrievedOne : RetrievedChunk := to_retrieved ⟨1, 9, ⟨1, 1, 11, [], none, [], true, []⟩⟩

/-- Witness for C2 on a store holding points of two courses. -/
theorem tenant_isolation_filter_witness :
    ∃ pt ∈ exCtxTwoCourses.store,
      to_retrieved pt = exRetrievedOne ∧
      pt.payload.course_id = exReqCourseOne.course_id ∧
      (exReqCourseOne.exclude_assignments = true → pt.payload.assignment_allowed = true) :=
  (tenant_isolation_filter exCtxTwoCourses exReqCourseOne).2.2
    ⟨exReqCourseOne.query, 1, 1, [exRetrievedOne], 1, true⟩ ⟨1, 1⟩ (by decide)
    exRetrievedOne (by decide)

/-!
## Claim C8 — idempotent ingestion
-/

theorem find_append_of_none {α : Type} (p : α → Bool) (l1 l2 : List α)
    (h : l1.find? p = none) : (l1 ++ l2).find? p = l2.find? p := by
  induction l1 with
  | nil => rfl
  | cons a l ih =>
    cases hp : p a with
    | true =>
      rw [List.find?_cons_of_pos _ hp] at h
      exact absurd h (by simp)
    | false =>
      rw [List.find?_cons_of_neg _ (by simp [hp])] at h
      rw [List.cons_append, List.find?_cons_of_neg _ (by simp [hp])]
      exact ih h

/-- C8: when a document with the request's exact `source_uri` already
exists, `ingest` returns success with the skip marker and the existing
document's id, leaves the database unchanged, and performs no parsing, no
chunking, no embedding and no vector upsert; consequently a second ingest
of a previously fresh-ingested `source_uri` creates no new document and no
new chunks and reports the first run's document id. -/
theorem ingestion_idempotent_skip (cfg : ContextualSlideAwareChunker) (db : IngestDB)
    (req : IngestionRequest) (slides slides2 : List SlideContent) (did did2 : Nat) :
    (∀ doc, get_by_source_uri db req.source_uri = some doc →
      db.courses.contains req.course_id = true →
      ingest cfg db req slides did =
        .ok ⟨doc.id, req.source_uri, 0, 0, 0, 0, true, some skip_marker⟩ db ⟨0, 0, 0, 0⟩) ∧
    (∀ m db1 tr, ingest cfg db req slides did = .ok m db1 tr → m.error = none →
      ingest cfg db1 req slides2 did2 =
        .ok ⟨did, req.source_uri, 0, 0, 0, 0, true, some skip_marker⟩ db1 ⟨0, 0, 0, 0⟩) := by
  constructor
  · intro doc hdoc hcourse
    simp only [ingest, hcourse, Bool.not_true, Bool.false_eq_true, if_false, hdoc]
  · intro m db1 tr hfresh herr
    simp only [ingest] at hfresh
    by_cases hcourse : db.courses.contains req.course_id = true
    · simp only [hcourse, Bool.not_true, Bool.false_eq_true, if_false] at hfresh
      cases hdoc : get_by_source_uri db req.source_uri with
      | some doc =>
        rw [hdoc] at hfresh
        rcases IngestOutcome.ok.injEq .. ▸ hfresh with ⟨hm, _, _⟩
        rw [← hm] at herr
        simp at herr
      | none =>
        rw [hdoc] at hfresh
        rcases IngestOutcome.ok.injEq .. ▸ hfresh with ⟨hm, hdb, htr⟩
        have hcourses1 : db1.courses = db.courses := by rw [← hdb]
        have hdocs1 : db1.documents = db.documents ++ [⟨did, req.course_id, req.source_uri⟩] := by
          rw [← hdb]
        have hfind : get_by_source_uri db1 req.source_uri =
            some ⟨did, req.course_id, req.source_uri⟩ := by
          simp only [get_by_source_uri, hdocs1]
          rw [find_append_of_none _ _ _ hdoc]
          simp [List.find?]
        simp only [ingest, hcourses1, hcourse, Bool.not_true, Bool.false_eq_true,
          if_false, hfind]
    · rw [Bool.not_eq_true] at hcourse
      have hmem : ¬ req.course_id ∈ db.courses := by simpa using hcourse
      simp [ingest, hmem] at hfresh

def exIngestDB : IngestDB := ⟨[7], [], []⟩

def exIngestReq : IngestionRequest := ⟨7, [], ['u'], [], none, true⟩

/-- Witness for C8: a fresh ingest followed by a second ingest of the same
`source_uri` on the resulting state, which skips with zero provider work. -/
theorem ingestion_idempotent_skip_witness :
    ingest defaultContextualChunker
        ⟨[7], [⟨3, 7, ['u']⟩], []⟩ exIngestReq [] 9 =
      .ok ⟨3, ['u'], 0, 0, 0, 0, true, some skip_marker⟩
        ⟨[7], [⟨3, 7, ['u']⟩], []⟩ ⟨0, 0, 0, 0⟩ :=
  (ingestion_idempotent_skip defaultContextualChunker exIngestDB exIngestReq [] [] 3 9).2
    ⟨3, ['u'], 0, 0, 0, 0, true, none⟩ ⟨[7], [⟨3, 7, ['u']⟩], []⟩ ⟨1, 1, 0, 0⟩
    (by decide) (by decide)

/-!
## Claim C4 — contextual chunking is the ingestion default
-/

theorem ctxMapGo_eq_zipWith (cfg : ContextualSlideAwareChunker) (slides : List SlideContent) :
    ∀ (l : List ChunkData) (p : Option ChunkData),
      ctxMapGo cfg slides p l =
        List.zipWith (fun prevOpt c =>
          match prevOpt with
          | none => c
          | some prev =>
            (⟨c.chunk_index,
              context_block cfg (slide_text_for slides prev.slide_number) ++ c.text,
              c.slide_number, c.slide_title, c.session_id,
              c.assignment_allowed⟩ : ChunkData))
          (p :: l.map some) l := by
  intro l
  induction l with
  | nil => intro p; cases p <;> rfl
  | cons c rest ih =>
    intro p
    cases p with
    | none => simp [ctxMapGo, List.zipWith, ih (some c)]
    | some prev => simp [ctxMapGo, List.zipWith, ih (some c)]

/-- C4: ingestion defaults to the contextual chunker; the contextual
variant emits exactly the base chunks, leaving the first chunk of the
document unchanged, and prepends to every later chunk a previous-context
block — the capped last sentences of the immediately preceding chunk's
source slide wrapped in the `"[Previous context: ...]"` marker — whose
length never exceeds the context cap, so no chunk grows past its base
length by more than the cap. -/
theorem contextual_chunker_default_and_bounds :
    select_chunker use_contextual_chunking_default = .contextual ∧
    ∀ (cfg : ContextualSlideAwareChunker) (slides : List SlideContent)
      (sid : Option Str) (aa : Bool),
      prev_context_open.length + prev_context_close.length ≤ cfg.max_context_chars →
      ((contextual_chunk_slides cfg slides sid aa).length
          = (chunk_slides cfg.base slides sid aa).length) ∧
      ((contextual_chunk_slides cfg slides sid aa)[0]?
          = (chunk_slides cfg.base slides sid aa)[0]?) ∧
      (∀ i c b bp, 0 < i →
        (chunk_slides cfg.base slides sid aa)[i]? = some b →
        (chunk_slides cfg.base slides sid aa)[i - 1]? = some bp →
        (contextual_chunk_slides cfg slides sid aa)[i]? = some c →
        c.text = context_block cfg (slide_text_for slides bp.slide_number) ++ b.text ∧
        context_block cfg (slide_text_for slides bp.slide_number) =
          prev_context_open ++
            List.take
              (cfg.max_context_chars
                - (prev_context_open.length + prev_context_close.length))
              (last_sentences cfg.context_sentences (slide_text_for slides bp.slide_number))
            ++ prev_context_close ∧
        (context_block cfg (slide_text_for slides bp.slide_number)).length
            ≤ cfg.max_context_chars ∧
        c.text.length ≤ b.text.length + cfg.max_context_chars) := by
  refine ⟨by decide, ?_⟩
  intro cfg slides sid aa hcap
  have hblock_len : ∀ t : Str,
      (context_block cfg t).length ≤ cfg.max_context_chars := by
    intro t
    have htake : (List.take
        (cfg.max_context_chars - (prev_context_open.length + prev_context_close.length))
        (last_sentences cfg.context_sentences t)).length
        ≤ cfg.max_context_chars - (prev_context_open.length + prev_context_close.length) := by
      simp [List.length_take]
    simp only [context_block, List.length_append]
    omega
  set base := chunk_slides cfg.base slides sid aa with hbase
  have heq := ctxMapGo_eq_zipWith cfg slides base none
  refine ⟨?_, ?_, ?_⟩
  · simp only [contextual_chunk_slides, ← hbase, heq]
    simp [List.length_zipWith]
  · simp only [contextual_chunk_slides, ← hbase, heq]
    rw [List.getElem?_zipWith]
    cases hb : base[0]? with
    | none => simp
    | some b => simp
  · intro i c b bp hi hb hbp hc
    simp only [contextual_chunk_slides, ← hbase, heq] at hc
    rw [List.getElem?_zipWith] at hc
    obtain ⟨j, rfl⟩ : ∃ j, i = j + 1 := ⟨i - 1, by omega⟩
    have hcons : (none :: base.map some)[j + 1]? = (base.map some)[j]? := by
      simp
    rw [hcons] at hc
    have hmap : (base.map some)[j]? = some (some bp) := by
      rw [List.getElem?_map]
      simp only [Nat.add_sub_cancel] at hbp
      rw [hbp]
      rfl
    rw [hmap, hb] at hc
    simp only [Option.some.injEq] at hc
    subst hc
    refine ⟨rfl, rfl, hblock_len _, ?_⟩
    simp only [List.length_append]
    have := hblock_len (slide_text_for slides bp.slide_number)
    omega

/-- Witness for C4: two one-line slides under the default contextual
chunker; the second chunk is the first chunk's text with a previous
context block prepended. -/
theorem contextual_chunker_default_and_bounds_witness :
    ((contextual_chunk_slides defaultContextualChunker
        [⟨1, none, ['h', 'i', '.'], []⟩, ⟨2, none, ['y', 'o'], []⟩] none true).length
      = (chunk_slides defaultChunker
        [⟨1, none, ['h', 'i', '.'], []⟩, ⟨2, none, ['y', 'o'], []⟩] none true).length) ∧
    ∀ c b bp,
      (chunk_slides defaultChunker
        [⟨1, none, ['h', 'i', '.'], []⟩, ⟨2, none, ['y', 'o'], []⟩] none true)[1]? = some b →
      (chunk_slides defaultChunker
        [⟨1, none, ['h', 'i', '.'], []⟩, ⟨2, none, ['y', 'o'], []⟩] none true)[0]? = some bp →
      (contextual_chunk_slides defaultContextualChunker
        [⟨1, none, ['h', 'i', '.'], []⟩, ⟨2, none, ['y', 'o'], []⟩] none true)[1]? = some c →
      c.text.length ≤ b.text.length + defaultContextualChunker.max_context_chars := by
  have h := contextual_chunker_default_and_bounds.2 defaultContextualChunker
    [⟨1, none, ['h', 'i', '.'], []⟩, ⟨2, none, ['y', 'o'], []⟩] none true (by decide)
  exact ⟨h.1, fun c b bp hb hbp hc => (h.2.2 1 c b bp (by omega) hb hbp hc).2.2.2⟩

/-!
## String lemmas for the chunker claims
-/

def allSpace (w : Str) : Prop := ∀ c ∈ w, pyIsSpace c = true

theorem allSpace_nil : allSpace [] := by intro c hc; simp at hc

theorem allSpace_append {w v : Str} (hw : allSpace w) (hv : allSpace v) :
    allSpace (w ++ v) := by
  intro c hc
  rcases List.mem_append.mp hc with h | h
  · exact hw c h
  · exact hv c h

theorem allSpace_reverse {w : Str} (hw : allSpace w) : allSpace w.reverse := by
  intro c hc
  exact hw c (List.mem_reverse.mp hc)

theorem allSpace_of_seg {a w : Str} (hw : allSpace w) (h : SubSeg a w) : allSpace a := by
  obtain ⟨u, v, rfl⟩ := h
  intro c hc
  exact hw c (by simp [hc])

theorem dropWhile_append_of_all {w y : Str} (hw : allSpace w) :
    (w ++ y).dropWhile pyIsSpace = y.dropWhile pyIsSpace := by
  induction w with
  | nil => rfl
  | cons c w ih =>
    rw [List.cons_append, List.dropWhile_cons_of_pos (hw c (by simp))]
    exact ih (fun d hd => hw d (by simp [hd]))

theorem dropWhile_append_of_ne {x y : Str} (hx : x.dropWhile pyIsSpace ≠ []) :
    (x ++ y).dropWhile pyIsSpace = x.dropWhile pyIsSpace ++ y := by
  induction x with
  | nil => exact absurd rfl hx
  | cons c x ih =>
    cases hc : pyIsSpace c with
    | true =>
      rw [List.dropWhile_cons_of_pos hc] at hx
      rw [List.cons_append, List.dropWhile_cons_of_pos hc, ih hx,
        List.dropWhile_cons_of_pos hc]
    | false =>
      rw [List.cons_append, List.dropWhile_cons_of_neg (by simp [hc]),
        List.dropWhile_cons_of_neg (by simp [hc]), List.cons_append]

theorem dropWhile_head {s t : Str} {c : Char}
    (h : s.dropWhile pyIsSpace = c :: t) : pyIsSpace c = false := by
  induction s with
  | nil => simp at h
  | cons d s ih =>
    cases hd : pyIsSpace d with
    | true =>
      rw [List.dropWhile_cons_of_pos hd] at h
      exact ih h
    | false =>
      rw [List.dropWhile_cons_of_neg (by simp [hd])] at h
      cases h
      exact hd

theorem dropWhile_nil_iff {s : Str} : s.dropWhile pyIsSpace = [] ↔ allSpace s := by
  induction s with
  | nil => simp [allSpace_nil]
  | cons c s ih =>
    cases hc : pyIsSpace c with
    | true =>
      rw [List.dropWhile_cons_of_pos hc]
      constructor
      · intro h d hd
        rcases List.mem_cons.mp hd with rfl | hd
        · exact hc
        · exact (ih.mp h) d hd
      · intro h
        exact ih.mpr (fun d hd => h d (by simp [hd]))
    | false =>
      rw [List.dropWhile_cons_of_neg (by simp [hc])]
      constructor
      · intro h; exact absurd h (by simp)
      · intro h
        exact absurd (h c (by simp)) (by simp [hc])

theorem dropWhile_decomp (s : Str) :
    ∃ w, allSpace w ∧ s = w ++ s.dropWhile pyIsSpace := by
  refine ⟨s.takeWhile pyIsSpace, ?_, (List.takeWhile_append_dropWhile ..).symm⟩
  intro c hc
  exact List.mem_takeWhile_imp hc

def rstrip (s : Str) : Str := (s.reverse.dropWhile pyIsSpace).reverse

theorem pstrip_eq_rstrip_dropWhile (s : Str) :
    pstrip s = rstrip (s.dropWhile pyIsSpace) := rfl

theorem rstrip_eq_nil_iff {u : Str} : rstrip u = [] ↔ allSpace u := by
  rw [rstrip, List.reverse_eq_nil_iff, dropWhile_nil_iff]
  constructor
  · intro h
    have := allSpace_reverse h
    simpa using this
  · exact allSpace_reverse

theorem rstrip_cons (c : Char) (u : Str) :
    rstrip (c :: u) =
      if rstrip u = [] then (if pyIsSpace c = true then [] else [c])
      else c :: rstrip u := by
  by_cases hu : rstrip u = []
  · have hall : allSpace u.reverse := by
      rw [rstrip, List.reverse_eq_nil_iff, dropWhile_nil_iff] at hu
      exact hu
    rw [if_pos hu, rstrip, List.reverse_cons, dropWhile_append_of_all hall]
    cases hc : pyIsSpace c with
    | true =>
      rw [List.dropWhile_cons_of_pos hc]
      simp
    | false =>
      have hcn : ¬ pyIsSpace c = true := by simp [hc]
      rw [List.dropWhile_cons_of_neg hcn]
      simp
  · have hne : u.reverse.dropWhile pyIsSpace ≠ [] := by
      intro h
      exact hu (by rw [rstrip, h]; rfl)
    rw [if_neg hu, rstrip, List.reverse_cons, dropWhile_append_of_ne hne]
    rw [List.reverse_append]
    rfl

theorem rstrip_append_space {x w : Str} (hw : allSpace w) :
    rstrip (x ++ w) = rstrip x := by
  rw [rstrip, List.reverse_append, dropWhile_append_of_all (allSpace_reverse hw)]
  rfl

theorem pstrip_cons_space {c : Char} {p : Str} (hc : pyIsSpace c = true) :
    pstrip (c :: p) = pstrip p := by
  simp only [pstrip, List.dropWhile_cons_of_pos hc]

theorem pstrip_allSpace {w : Str} (hw : allSpace w) : pstrip w = [] := by
  rw [pstrip_eq_rstrip_dropWhile, dropWhile_nil_iff.mpr hw]
  rfl

theorem pstrip_append_space {x w : Str} (hw : allSpace w) :
    pstrip (x ++ w) = pstrip x := by
  by_cases hx : x.dropWhile pyIsSpace = []
  · rw [pstrip_eq_rstrip_dropWhile,
      dropWhile_nil_iff.mpr (allSpace_append (dropWhile_nil_iff.mp hx) hw),
      pstrip_eq_rstrip_dropWhile, hx]
  · rw [pstrip_eq_rstrip_dropWhile, dropWhile_append_of_ne hx, rstrip_append_space hw,
      pstrip_eq_rstrip_dropWhile]

theorem pstrip_head {s t : Str} {c : Char} (h : pstrip s = c :: t) :
    pyIsSpace c = false := by
  rw [pstrip_eq_rstrip_dropWhile] at h
  cases hd : s.dropWhile pyIsSpace with
  | nil => rw [hd] at h; simp [rstrip] at h
  | cons d u =>
    rw [hd, rstrip_cons] at h
    have hdns : pyIsSpace d = false := dropWhile_head hd
    by_cases hu : rstrip u = []
    · rw [if_pos hu, if_neg (by simp [hdns])] at h
      cases h
      exact hdns
    · rw [if_neg hu] at h
      cases h
      exact hdns

theorem pstrip_reverse_head {s t : Str} {c : Char}
    (h : (pstrip s).reverse = c :: t) : pyIsSpace c = false := by
  have : (pstrip s).reverse = (s.dropWhile pyIsSpace).reverse.dropWhile pyIsSpace := by
    simp [pstrip]
  rw [this] at h
  exact dropWhile_head h

theorem rstrip_decomp (s : Str) : ∃ w, allSpace w ∧ s = rstrip s ++ w := by
  obtain ⟨w, hw, hs⟩ := dropWhile_decomp s.reverse
  refine ⟨w.reverse, allSpace_reverse hw, ?_⟩
  have := congrArg List.reverse hs
  simpa [rstrip] using this

theorem pstrip_decomp (s : Str) :
    ∃ w1 w2, allSpace w1 ∧ allSpace w2 ∧ s = w1 ++ pstrip s ++ w2 := by
  obtain ⟨w1, hw1, hs1⟩ := dropWhile_decomp s
  obtain ⟨w2, hw2, hs2⟩ := rstrip_decomp (s.dropWhile pyIsSpace)
  refine ⟨w1, w2, hw1, hw2, ?_⟩
  rw [pstrip_eq_rstrip_dropWhile]
  calc s = w1 ++ s.dropWhile pyIsSpace := hs1
    _ = w1 ++ (rstrip (s.dropWhile pyIsSpace) ++ w2) := by rw [← hs2]
    _ = w1 ++ rstrip (s.dropWhile pyIsSpace) ++ w2 := by simp

theorem seg_pstrip_self (s : Str) : SubSeg (pstrip s) s := by
  obtain ⟨w1, w2, _, _, hs⟩ := pstrip_decomp s
  exact ⟨w1, w2, hs⟩

theorem pstrip_length_le (s : Str) : (pstrip s).length ≤ s.length := by
  obtain ⟨w1, w2, _, _, hs⟩ := pstrip_decomp s
  have := congrArg List.length hs
  simp at this
  omega

theorem pstrip_fix {s : Str} {c : Char} {t : Str} (h : pstrip s = c :: t) :
    pstrip (pstrip s) = pstrip s := by
  have hc : pyIsSpace c = false := pstrip_head h
  have hrev : ∃ d r, (pstrip s).reverse = d :: r := by
    cases hr : (pstrip s).reverse with
    | nil => rw [List.reverse_eq_nil_iff] at hr; rw [hr] at h; cases h
    | cons d r => exact ⟨d, r, rfl⟩
  obtain ⟨d, r, hr⟩ := hrev
  have hd : pyIsSpace d = false := pstrip_reverse_head hr
  have h1 : (pstrip s).dropWhile pyIsSpace = pstrip s := by
    rw [h, List.dropWhile_cons_of_neg (by simp [hc])]
  rw [pstrip_eq_rstrip_dropWhile, h1, rstrip, hr,
    List.dropWhile_cons_of_neg (by simp [hd]), ← hr, List.reverse_reverse]

theorem pstrip_idem (s : Str) : pstrip (pstrip s) = pstrip s := by
  cases h : pstrip s with
  | nil => rfl
  | cons c t =>
    have := pstrip_fix h
    rw [h] at this
    exact this

theorem seg_dropWhile {a b : Str} {c : Char} (h : SubSeg (c :: a) b)
    (hc : pyIsSpace c = false) : SubSeg (c :: a) (b.dropWhile pyIsSpace) := by
  obtain ⟨u, v, rfl⟩ := h
  have hre : u ++ (c :: a) ++ v = u ++ (c :: (a ++ v)) := by simp
  rw [hre]
  clear hre
  induction u with
  | nil =>
    have hcn : ¬ pyIsSpace c = true := by simp [hc]
    rw [List.nil_append, List.dropWhile_cons_of_neg hcn]
    exact ⟨[], v, by simp⟩
  | cons x u ih =>
    rw [List.cons_append]
    cases hx : pyIsSpace x with
    | true =>
      rw [List.dropWhile_cons_of_pos hx]
      exact ih
    | false =>
      have hxn : ¬ pyIsSpace x = true := by simp [hx]
      rw [List.dropWhile_cons_of_neg hxn]
      exact ⟨x :: u, v, by simp⟩

theorem seg_pstrip {a b : Str} (h : SubSeg a b) (ha : a ≠ [])
    (hfix : pstrip a = a) : SubSeg a (pstrip b) := by
  obtain ⟨c, t, rfl⟩ := List.exists_cons_of_ne_nil ha
  have hc : pyIsSpace c = false := pstrip_head hfix
  have step1 : SubSeg (c :: t) (b.dropWhile pyIsSpace) := seg_dropWhile h hc
  have hrev : ∃ d r, (c :: t).reverse = d :: r := by
    cases hr : (c :: t).reverse with
    | nil => rw [List.reverse_eq_nil_iff] at hr; cases hr
    | cons d r => exact ⟨d, r, rfl⟩
  obtain ⟨d, r, hr⟩ := hrev
  have hd : pyIsSpace d = false := pstrip_reverse_head (by rw [hfix]; exact hr)
  have step2 : SubSeg (d :: r) (b.dropWhile pyIsSpace).reverse := by
    rw [← hr]
    exact seg_reverse step1
  have step3 : SubSeg (d :: r) ((b.dropWhile pyIsSpace).reverse.dropWhile pyIsSpace) :=
    seg_dropWhile step2 hd
  have step4 := seg_reverse step3
  rw [← hr, List.reverse_reverse] at step4
  exact step4

theorem seg_subset {a b : Str} (h : SubSeg a b) : ∀ c ∈ a, c ∈ b := by
  obtain ⟨u, v, rfl⟩ := h
  intro c hc
  simp [hc]

theorem linesOf_nil_eq : linesOf [] = [[]] := rfl

theorem linesOf_cons_nl (rest : Str) : linesOf ('\n' :: rest) = [] :: linesOf rest := by
  simp [linesOf]

theorem linesOf_cons_of_ne (c : Char) (rest : Str) (hc : c ≠ '\n') {p : Str}
    {ps : List Str} (h : linesOf rest = p :: ps) :
    linesOf (c :: rest) = (c :: p) :: ps := by
  rw [linesOf, if_neg hc, h]

theorem linesOf_ne_nil (s : Str) : linesOf s ≠ [] := by
  cases s with
  | nil => simp [linesOf]
  | cons c rest =>
    by_cases hc : c = '\n'
    · subst hc; rw [linesOf_cons_nl]; simp
    · cases h : linesOf rest with
      | nil =>
        rw [linesOf, if_neg hc, h]
        simp
      | cons p ps =>
        rw [linesOf_cons_of_ne c rest hc h]
        simp

theorem joinSep_cons (sep x y : Str) (rest : List Str) :
    joinSep sep (x :: y :: rest) = x ++ sep ++ joinSep sep (y :: rest) := rfl

theorem joinSep_cons_ne (sep x : Str) {L : List Str} (h : L ≠ []) :
    joinSep sep (x :: L) = x ++ sep ++ joinSep sep L := by
  cases L with
  | nil => exact absurd rfl h
  | cons y ys => rfl

theorem joinSep_nl_linesOf (s : Str) : joinSep ['\n'] (linesOf s) = s := by
  induction s with
  | nil => rfl
  | cons c rest ih =>
    cases h : linesOf rest with
    | nil => exact absurd h (linesOf_ne_nil rest)
    | cons p ps =>
      by_cases hc : c = '\n'
      · subst hc
        rw [linesOf_cons_nl, joinSep_cons_ne _ _ (linesOf_ne_nil rest), ih]
        simp
      · rw [linesOf_cons_of_ne c rest hc h]
        cases ps with
        | nil =>
          rw [h] at ih
          simp only [joinSep] at ih ⊢
          rw [ih]
        | cons q qs =>
          rw [joinSep_cons, List.cons_append, List.cons_append, ← joinSep_cons, ← h, ih]

theorem linesOf_append_nl (a b : Str) :
    linesOf (a ++ '\n' :: b) = linesOf a ++ linesOf b := by
  induction a with
  | nil =>
    rw [List.nil_append, linesOf_cons_nl, linesOf_nil_eq]
    rfl
  | cons c a ih =>
    by_cases hc : c = '\n'
    · subst hc
      rw [List.cons_append, linesOf_cons_nl, linesOf_cons_nl, ih]
      rfl
    · cases h : linesOf a with
      | nil => exact absurd h (linesOf_ne_nil a)
      | cons p ps =>
        rw [List.cons_append, linesOf_cons_of_ne c a hc h,
          linesOf_cons_of_ne c _ hc (by rw [ih, h]; rfl)]
        rfl

theorem seg_of_mem_joinSep {l : Str} {L : List Str} (sep : Str) (h : l ∈ L) :
    SubSeg l (joinSep sep L) := by
  induction L with
  | nil => simp at h
  | cons x rest ih =>
    rcases List.mem_cons.mp h with rfl | hmem
    · cases rest with
      | nil => exact seg_refl l
      | cons y ys =>
        rw [joinSep_cons]
        exact seg_append_right _ (seg_append_right _ (seg_refl l))
    · cases rest with
      | nil => simp at hmem
      | cons y ys =>
        rw [joinSep_cons, List.append_assoc]
        exact seg_append_left _ (seg_append_left _ (ih hmem))

theorem seg_of_mem_linesOf {l s : Str} (h : l ∈ linesOf s) : SubSeg l s := by
  have := seg_of_mem_joinSep ['\n'] h
  rwa [joinSep_nl_linesOf] at this

theorem splitNN_ne_nil (s : Str) : splitNN s ≠ [] := by
  induction s using splitNN.induct with
  | case1 => simp [splitNN.eq_1]
  | case2 rest ih => rw [splitNN.eq_2]; simp
  | case3 c rest h hnil ih => rw [splitNN.eq_3 c rest h, hnil]; simp
  | case4 c rest h p ps hcons ih => rw [splitNN.eq_3 c rest h, hcons]; simp

theorem joinSep_nn_splitNN (s : Str) : joinSep ['\n', '\n'] (splitNN s) = s := by
  induction s using splitNN.induct with
  | case1 => rfl
  | case2 rest ih =>
    rw [splitNN.eq_2, joinSep_cons_ne _ _ (splitNN_ne_nil rest), ih]
    rfl
  | case3 c rest h hnil ih =>
    exact absurd hnil (splitNN_ne_nil rest)
  | case4 c rest h p ps hcons ih =>
    rw [splitNN.eq_3 c rest h, hcons]
    rw [hcons] at ih
    cases ps with
    | nil =>
      simp only [joinSep] at ih ⊢
      rw [ih]
    | cons q qs =>
      rw [joinSep_cons, List.cons_append, List.cons_append, ← joinSep_cons, ih]

/-- A contiguous block of entries inside a list of lines. -/
def Block (R L : List Str) : Prop := ∃ A B, L = A ++ R ++ B

theorem block_mem {R L : List Str} (h : Block R L) {l : Str} (hl : l ∈ R) : l ∈ L := by
  obtain ⟨A, B, rfl⟩ := h
  simp [hl]

theorem block_cons {R L : List Str} (x : Str) (h : Block R L) : Block R (x :: L) := by
  obtain ⟨A, B, rfl⟩ := h
  exact ⟨x :: A, B, rfl⟩

theorem block_prefix_aux {R L1 L2 B : List Str}
    (hne : ∀ l ∈ R, l ≠ ([] : Str))
    (h : L1 ++ ([] : Str) :: L2 = R ++ B) : ∃ B2, L1 = R ++ B2 := by
  induction R generalizing L1 with
  | nil => exact ⟨L1, by simp⟩
  | cons r R ih =>
    cases L1 with
    | nil =>
      simp only [List.nil_append] at h
      cases h
      exact absurd rfl (hne [] (by simp))
    | cons x L1 =>
      simp only [List.cons_append, List.cons.injEq] at h
      obtain ⟨rfl, h2⟩ := h
      obtain ⟨B2, hB2⟩ := ih (fun l hl => hne l (by simp [hl])) h2
      exact ⟨B2, by rw [List.cons_append, hB2]⟩

theorem block_split {R L1 L2 : List Str}
    (h : Block R (L1 ++ ([] : Str) :: L2))
    (hne : ∀ l ∈ R, l ≠ ([] : Str)) : Block R L1 ∨ Block R L2 := by
  obtain ⟨A, B, hAB⟩ := h
  induction A generalizing L1 with
  | nil =>
    simp only [List.nil_append] at hAB
    obtain ⟨B2, hB2⟩ := block_prefix_aux hne hAB
    exact Or.inl ⟨[], B2, by rw [hB2]; simp⟩
  | cons a A ih =>
    cases L1 with
    | nil =>
      simp only [List.nil_append, List.cons_append, List.cons.injEq] at hAB
      obtain ⟨rfl, h2⟩ := hAB
      exact Or.inr ⟨A, B, h2⟩
    | cons x L1 =>
      simp only [List.cons_append, List.cons.injEq] at hAB
      obtain ⟨rfl, h2⟩ := hAB
      rcases ih h2 with hL | hR
      · exact Or.inl (block_cons _ hL)
      · exact Or.inr hR

theorem block_para {R : List Str} {s : Str}
    (h : Block R (linesOf s)) (hne : ∀ l ∈ R, l ≠ ([] : Str)) :
    ∃ p ∈ splitNN s, Block R (linesOf p) := by
  have hjoin := joinSep_nn_splitNN s
  have haux : ∀ ps : List Str, ps ≠ [] →
      Block R (linesOf (joinSep ['\n', '\n'] ps)) →
      ∃ p ∈ ps, Block R (linesOf p) := by
    intro ps
    induction ps with
    | nil => intro h1 _; exact absurd rfl h1
    | cons p rest ih =>
      intro _ hb
      cases rest with
      | nil => exact ⟨p, by simp, hb⟩
      | cons q qs =>
        rw [joinSep_cons, List.append_assoc] at hb
        have hsh : (['\n', '\n'] : Str) ++ joinSep ['\n', '\n'] (q :: qs)
            = '\n' :: ('\n' :: joinSep ['\n', '\n'] (q :: qs)) := by simp
        rw [hsh, linesOf_append_nl, linesOf_cons_nl] at hb
        rcases block_split hb hne with h1 | h2
        · exact ⟨p, by simp, h1⟩
        · obtain ⟨p2, hp2, hb2⟩ := ih (by simp) h2
          exact ⟨p2, by simp [hp2], hb2⟩
  have := haux (splitNN s) (splitNN_ne_nil s) (by rw [hjoin]; exact h)
  exact this

theorem spbGo_nil (g r : List Str) :
    spbGo [] g r = r ++ (if g.isEmpty then [] else [joinSep ['\n'] g]) := rfl

theorem spbGo_cons_skip {l : Str} (rest : List Str) (g r : List Str)
    (h : pstrip l = []) : spbGo (l :: rest) g r = spbGo rest g r := by
  simp [spbGo, h]

theorem spbGo_cons_bullet {l : Str} (rest : List Str) (g r : List Str)
    (h : pstrip l ≠ []) (hb : is_bullet_line (pstrip l) = true) :
    spbGo (l :: rest) g r = spbGo rest (g ++ [pstrip l]) r := by
  simp [spbGo, h, hb, List.isEmpty_iff]

theorem spbGo_cons_text_nogroup {l : Str} (rest : List Str) (r : List Str)
    (h : pstrip l ≠ []) (hb : is_bullet_line (pstrip l) = false) :
    spbGo (l :: rest) [] r = spbGo rest [] (r ++ [pstrip l]) := by
  simp [spbGo, h, hb, List.isEmpty_iff]

theorem spbGo_cons_text_group {l : Str} (rest : List Str) (g r : List Str)
    (h : pstrip l ≠ []) (hb : is_bullet_line (pstrip l) = false) (hg : g ≠ []) :
    spbGo (l :: rest) g r = spbGo rest [] (r ++ [joinSep ['\n'] g, pstrip l]) := by
  simp [spbGo, h, hb, hg, List.isEmpty_iff]

theorem spbGo_head_congr {l1 l2 : Str} (h : pstrip l1 = pstrip l2)
    (X : List Str) (g r : List Str) : spbGo (l1 :: X) g r = spbGo (l2 :: X) g r := by
  simp [spbGo, h]

theorem spbGo_tail_congr {X Y : List Str}
    (h : ∀ g r, spbGo X g r = spbGo Y g r) (l : Str) (g r : List Str) :
    spbGo (l :: X) g r = spbGo (l :: Y) g r := by
  by_cases he : pstrip l = []
  · rw [spbGo_cons_skip _ _ _ he, spbGo_cons_skip _ _ _ he, h]
  · cases hb : is_bullet_line (pstrip l) with
    | true => rw [spbGo_cons_bullet _ _ _ he hb, spbGo_cons_bullet _ _ _ he hb, h]
    | false =>
      by_cases hg : g = []
      · subst hg
        rw [spbGo_cons_text_nogroup _ _ he hb, spbGo_cons_text_nogroup _ _ he hb, h]
      · rw [spbGo_cons_text_group _ _ _ he hb hg, spbGo_cons_text_group _ _ _ he hb hg, h]

theorem spbGo_skip_all {L : List Str} (h : ∀ l ∈ L, pstrip l = []) (g r : List Str) :
    spbGo L g r = spbGo [] g r := by
  induction L with
  | nil => rfl
  | cons l rest ih =>
    rw [spbGo_cons_skip _ _ _ (h l (by simp))]
    exact ih (fun x hx => h x (by simp [hx]))

theorem spbGo_mono (L : List Str) : ∀ g r, spbGo L g r = r ++ spbGo L g [] := by
  induction L with
  | nil => intro g r; rw [spbGo_nil, spbGo_nil, List.nil_append]
  | cons l rest ih =>
    intro g r
    by_cases he : pstrip l = []
    · rw [spbGo_cons_skip _ _ _ he, spbGo_cons_skip _ _ _ he, ih]
    · cases hb : is_bullet_line (pstrip l) with
      | true =>
        rw [spbGo_cons_bullet _ _ _ he hb, spbGo_cons_bullet _ _ _ he hb, ih]
      | false =>
        by_cases hg : g = []
        · subst hg
          rw [spbGo_cons_text_nogroup _ _ he hb, spbGo_cons_text_nogroup _ _ he hb,
            ih _ (r ++ [pstrip l]), ih _ ([] ++ [pstrip l])]
          simp
        · rw [spbGo_cons_text_group _ _ _ he hb hg, spbGo_cons_text_group _ _ _ he hb hg,
            ih _ (r ++ [joinSep ['\n'] g, pstrip l]),
            ih _ ([] ++ [joinSep ['\n'] g, pstrip l])]
          simp

/-- Attach a pending first-line; used to relate the line decompositions of a
string and its right-stripped form. -/
def consHead (pre : Str) : List Str → List Str
  | [] => [pre]
  | h :: t => (pre ++ h) :: t

theorem consHead_nil_left {L : List Str} (h : L ≠ []) : consHead [] L = L := by
  cases L with
  | nil => exact absurd rfl h
  | cons x t => simp [consHead]

theorem nl_is_space : pyIsSpace '\n' = true := by decide

theorem lines_allSpace {w l : Str} (hw : allSpace w) (hl : l ∈ linesOf w) :
    pstrip l = [] :=
  pstrip_allSpace (allSpace_of_seg hw (seg_of_mem_linesOf hl))

theorem spb_ldrop (p : Str) : ∀ g r,
    spbGo (linesOf (p.dropWhile pyIsSpace)) g r = spbGo (linesOf p) g r := by
  induction p with
  | nil => intro g r; rfl
  | cons c p ih =>
    intro g r
    cases hc : pyIsSpace c with
    | false => rw [List.dropWhile_cons_of_neg (by simp [hc])]
    | true =>
      rw [List.dropWhile_cons_of_pos hc]
      by_cases hnl : c = '\n'
      · subst hnl
        rw [linesOf_cons_nl, spbGo_cons_skip _ _ _ (by rfl), ih]
      · cases hL : linesOf p with
        | nil => exact absurd hL (linesOf_ne_nil p)
        | cons h t =>
          rw [linesOf_cons_of_ne c p hnl hL, ih,
            hL, spbGo_head_congr (pstrip_cons_space hc) t g r]

theorem spb_rstrip (q : Str) : ∀ pre g r,
    spbGo (consHead pre (linesOf (rstrip q))) g r
      = spbGo (consHead pre (linesOf q)) g r := by
  induction q with
  | nil => intro pre g r; rfl
  | cons c q ih =>
    intro pre g r
    by_cases hq : rstrip q = []
    · have hall : allSpace q := rstrip_eq_nil_iff.mp hq
      have hlines : ∀ l ∈ linesOf q, pstrip l = [] := fun l hl => lines_allSpace hall hl
      rw [rstrip_cons, if_pos hq]
      cases hc : pyIsSpace c with
      | true =>
        simp only [eq_self_iff_true, if_true]
        by_cases hnl : c = '\n'
        · subst hnl
          rw [linesOf_cons_nl]
          show spbGo [pre ++ []] g r = spbGo ((pre ++ []) :: linesOf q) g r
          exact (spbGo_tail_congr (fun g r => spbGo_skip_all hlines g r) (pre ++ []) g r).symm
        · cases hL : linesOf q with
          | nil => exact absurd hL (linesOf_ne_nil q)
          | cons h t =>
            rw [linesOf_cons_of_ne c q hnl hL]
            show spbGo [pre ++ []] g r = spbGo ((pre ++ (c :: h)) :: t) g r
            have hth : ∀ l ∈ t, pstrip l = [] := fun l hl => hlines l (by rw [hL]; simp [hl])
            have hhall : allSpace h := by
              have hph := hlines h (by rw [hL]; simp)
              intro e he
              by_contra hcon
              obtain ⟨w1, w2, hw1, hw2, hdec⟩ := pstrip_decomp h
              rw [hph] at hdec
              simp only [List.append_nil] at hdec
              rw [hdec] at he
              rcases List.mem_append.mp he with h1 | h1
              · exact hcon (hw1 e h1)
              · exact hcon (hw2 e h1)
            have hchw : allSpace (c :: h) := by
              intro d hd
              rcases List.mem_cons.mp hd with rfl | hd
              · exact hc
              · exact hhall d hd
            have hstep1 : spbGo ((pre ++ (c :: h)) :: t) g r
                = spbGo ((pre ++ (c :: h)) :: ([] : List Str)) g r :=
              spbGo_tail_congr (fun g r => spbGo_skip_all hth g r) _ g r
            have hstep2 : spbGo ((pre ++ (c :: h)) :: ([] : List Str)) g r
                = spbGo ((pre ++ []) :: ([] : List Str)) g r := by
              refine spbGo_head_congr ?_ _ g r
              rw [pstrip_append_space hchw, List.append_nil]
            exact (hstep1.trans hstep2).symm
      | false =>
        simp only [Bool.false_eq_true, if_false]
        have hnl : c ≠ '\n' := by
          intro hcon
          rw [hcon] at hc
          exact absurd nl_is_space (by simp [hc])
        rw [linesOf_cons_of_ne c [] hnl rfl]
        cases hL : linesOf q with
        | nil => exact absurd hL (linesOf_ne_nil q)
        | cons h t =>
          rw [linesOf_cons_of_ne c q hnl hL]
          show spbGo [pre ++ (c :: [])] g r = spbGo ((pre ++ (c :: h)) :: t) g r
          have hth : ∀ l ∈ t, pstrip l = [] := fun l hl => hlines l (by rw [hL]; simp [hl])
          have hhall : allSpace h := by
            have hph := hlines h (by rw [hL]; simp)
            intro e he
            by_contra hcon
            obtain ⟨w1, w2, hw1, hw2, hdec⟩ := pstrip_decomp h
            rw [hph] at hdec
            simp only [List.append_nil] at hdec
            rw [hdec] at he
            rcases List.mem_append.mp he with h1 | h1
            · exact hcon (hw1 e h1)
            · exact hcon (hw2 e h1)
          have hstep1 : spbGo ((pre ++ (c :: h)) :: t) g r
              = spbGo ((pre ++ (c :: h)) :: ([] : List Str)) g r :=
            spbGo_tail_congr (fun g r => spbGo_skip_all hth g r) _ g r
          have hstep2 : spbGo ((pre ++ (c :: h)) :: ([] : List Str)) g r
              = spbGo ((pre ++ (c :: [])) :: ([] : List Str)) g r := by
            refine spbGo_head_congr ?_ _ g r
            have h1 : pre ++ (c :: h) = (pre ++ [c]) ++ h := by simp
            have h2 : pre ++ (c :: ([] : Str)) = pre ++ [c] := by simp
            rw [h1, h2, pstrip_append_space hhall]
          exact (hstep1.trans hstep2).symm
    · rw [rstrip_cons, if_neg hq]
      by_cases hnl : c = '\n'
      · subst hnl
        rw [linesOf_cons_nl, linesOf_cons_nl]
        show spbGo ((pre ++ []) :: linesOf (rstrip q)) g r
          = spbGo ((pre ++ []) :: linesOf q) g r
        refine spbGo_tail_congr (fun g r => ?_) (pre ++ []) g r
        have hih := ih [] g r
        rw [consHead_nil_left (linesOf_ne_nil _), consHead_nil_left (linesOf_ne_nil _)] at hih
        exact hih
      · cases hL1 : linesOf (rstrip q) with
        | nil => exact absurd hL1 (linesOf_ne_nil _)
        | cons h1 t1 =>
          cases hL2 : linesOf q with
          | nil => exact absurd hL2 (linesOf_ne_nil q)
          | cons h2 t2 =>
            rw [linesOf_cons_of_ne c _ hnl hL1, linesOf_cons_of_ne c q hnl hL2]
            show spbGo ((pre ++ (c :: h1)) :: t1) g r = spbGo ((pre ++ (c :: h2)) :: t2) g r
            have hih := ih (pre ++ [c]) g r
            rw [hL1, hL2] at hih
            show spbGo ((pre ++ (c :: h1)) :: t1) g r = spbGo ((pre ++ (c :: h2)) :: t2) g r
            have e1 : pre ++ (c :: h1) = (pre ++ [c]) ++ h1 := by simp
            have e2 : pre ++ (c :: h2) = (pre ++ [c]) ++ h2 := by simp
            rw [e1, e2]
            exact hih

theorem spb_pstrip (p : Str) : split_preserving_bullets (pstrip p) = split_preserving_bullets p := by
  simp only [split_preserving_bullets]
  rw [pstrip_eq_rstrip_dropWhile]
  have h1 : linesOf (rstrip (p.dropWhile pyIsSpace))
      = consHead [] (linesOf (rstrip (p.dropWhile pyIsSpace))) := by
    rw [consHead_nil_left (linesOf_ne_nil _)]
  rw [h1, spb_rstrip (p.dropWhile pyIsSpace) [],
    consHead_nil_left (linesOf_ne_nil _), spb_ldrop]
theorem joinSep_append (sep : Str) {G X : List Str} (hG : G ≠ []) (hX : X ≠ []) :
    joinSep sep (G ++ X) = joinSep sep G ++ sep ++ joinSep sep X := by
  induction G with
  | nil => exact absurd rfl hG
  | cons g G ih =>
    cases G with
    | nil =>
      cases X with
      | nil => exact absurd rfl hX
      | cons x xs => rfl
    | cons g2 G2 =>
      rw [List.cons_append, joinSep_cons_ne _ _ (by simp), joinSep_cons,
        ih (by simp)]
      simp

theorem joinSep_block_seg (sep : Str) {M : List Str} (G H : List Str) (hM : M ≠ []) :
    SubSeg (joinSep sep M) (joinSep sep (G ++ M ++ H)) := by
  by_cases hG : G = []
  · subst hG
    by_cases hH : H = []
    · subst hH
      simp only [List.nil_append, List.append_nil]
      exact seg_refl _
    · simp only [List.nil_append]
      rw [joinSep_append sep hM hH]
      exact seg_append_right _ (seg_append_right _ (seg_refl _))
  · by_cases hH : H = []
    · subst hH
      simp only [List.append_nil]
      rw [joinSep_append sep hG hM]
      rw [List.append_assoc]
      exact seg_append_left _ (seg_of_append_right _ _)
    · rw [List.append_assoc, joinSep_append sep hG (by simp [hM] : M ++ H ≠ []),
        joinSep_append sep hM hH]
      rw [List.append_assoc, List.append_assoc]
      refine seg_append_left _ (seg_append_left _ ?_)
      exact seg_of_append_left _ _

theorem spbGo_bullets {R : List Str}
    (hR : ∀ l ∈ R, pstrip l ≠ [] ∧ is_bullet_line (pstrip l) = true) :
    ∀ (B : List Str) (g r : List Str),
      spbGo (R ++ B) g r = spbGo B (g ++ R.map pstrip) r := by
  induction R with
  | nil => intro B g r; simp
  | cons l R ih =>
    intro B g r
    obtain ⟨h1, h2⟩ := hR l (by simp)
    rw [List.cons_append, spbGo_cons_bullet _ _ _ h1 h2,
      ih (fun x hx => hR x (by simp [hx])) B]
    simp

theorem spbGo_group_out {M : List Str} (hM : M ≠ []) :
    ∀ (B : List Str) (g r : List Str), (∃ G H, g = G ++ M ++ H) →
      ∃ piece ∈ spbGo B g r, SubSeg (joinSep ['\n'] M) piece := by
  intro B
  induction B with
  | nil =>
    rintro g r ⟨G, H, rfl⟩
    have hg : (G ++ M ++ H).isEmpty = false := by
      cases M with
      | nil => exact absurd rfl hM
      | cons m ms => simp
    rw [spbGo_nil, hg]
    refine ⟨joinSep ['\n'] (G ++ M ++ H), by simp, ?_⟩
    exact joinSep_block_seg _ G H hM
  | cons l B ih =>
    rintro g r ⟨G, H, rfl⟩
    by_cases he : pstrip l = []
    · rw [spbGo_cons_skip _ _ _ he]
      exact ih _ r ⟨G, H, rfl⟩
    · cases hb : is_bullet_line (pstrip l) with
      | true =>
        rw [spbGo_cons_bullet _ _ _ he hb]
        exact ih _ r ⟨G, H ++ [pstrip l], by simp⟩
      | false =>
        have hg : G ++ M ++ H ≠ [] := by
          cases M with
          | nil => exact absurd rfl hM
          | cons m ms => simp
        rw [spbGo_cons_text_group _ _ _ he hb hg]
        refine ⟨joinSep ['\n'] (G ++ M ++ H), ?_, joinSep_block_seg _ G H hM⟩
        rw [spbGo_mono]
        simp

theorem spb_block {R : List Str}
    (hR : ∀ l ∈ R, pstrip l ≠ [] ∧ is_bullet_line (pstrip l) = true)
    (hRne : R ≠ []) :
    ∀ (A B : List Str) (g r : List Str),
      ∃ piece ∈ spbGo (A ++ R ++ B) g r,
        SubSeg (joinSep ['\n'] (R.map pstrip)) piece := by
  intro A
  induction A with
  | nil =>
    intro B g r
    rw [List.nil_append, spbGo_bullets hR B g r]
    refine spbGo_group_out ?_ B _ r ⟨g, [], by simp⟩
    cases R with
    | nil => exact absurd rfl hRne
    | cons x xs => simp
  | cons a A ih =>
    intro B g r
    have hsh : ((a :: A) ++ R) ++ B = a :: ((A ++ R) ++ B) := by simp
    rw [hsh]
    by_cases he : pstrip a = []
    · rw [spbGo_cons_skip _ _ _ he]
      exact ih B g r
    · cases hb : is_bullet_line (pstrip a) with
      | true =>
        rw [spbGo_cons_bullet _ _ _ he hb]
        exact ih B _ r
      | false =>
        by_cases hg : g = []
        · subst hg
          rw [spbGo_cons_text_nogroup _ _ he hb]
          exact ih B [] _
        · rw [spbGo_cons_text_group _ _ _ he hb hg]
          exact ih B [] _

theorem sipGo_cons_skip (cfg : SlideAwareChunker) {para : Str} (rest res : List Str)
    (h : pstrip para = []) : sipGo cfg (para :: rest) res = sipGo cfg rest res := by
  simp [sipGo, h]

theorem sipGo_cons_small (cfg : SlideAwareChunker) {para : Str} (rest res : List Str)
    (h : pstrip para ≠ []) (hlen : (pstrip para).length ≤ cfg.max_chunk_chars) :
    sipGo cfg (para :: rest) res = sipGo cfg rest (res ++ [pstrip para]) := by
  simp [sipGo, h, hlen, List.isEmpty_iff]

theorem sipGo_cons_big (cfg : SlideAwareChunker) {para : Str} (rest res : List Str)
    (h : pstrip para ≠ []) (hlen : ¬ (pstrip para).length ≤ cfg.max_chunk_chars) :
    sipGo cfg (para :: rest) res
      = sipGo cfg rest (res ++ split_preserving_bullets (pstrip para)) := by
  simp [sipGo, h, hlen, List.isEmpty_iff]

theorem sipGo_mono (cfg : SlideAwareChunker) (L : List Str) :
    ∀ res, sipGo cfg L res = res ++ sipGo cfg L [] := by
  induction L with
  | nil => intro res; simp [sipGo]
  | cons para rest ih =>
    intro res
    by_cases h : pstrip para = []
    · rw [sipGo_cons_skip _ _ _ h, sipGo_cons_skip _ _ _ h, ih]
    · by_cases hlen : (pstrip para).length ≤ cfg.max_chunk_chars
      · rw [sipGo_cons_small _ _ _ h hlen, sipGo_cons_small _ _ _ h hlen,
          ih (res ++ [pstrip para]), ih ([] ++ [pstrip para])]
        simp
      · rw [sipGo_cons_big _ _ _ h hlen, sipGo_cons_big _ _ _ h hlen,
          ih (res ++ split_preserving_bullets (pstrip para)),
          ih ([] ++ split_preserving_bullets (pstrip para))]
        simp

theorem sipGo_mem_small (cfg : SlideAwareChunker) {para : Str} {L : List Str}
    (hmem : para ∈ L) (h : pstrip para ≠ [])
    (hlen : (pstrip para).length ≤ cfg.max_chunk_chars) :
    ∀ res, pstrip para ∈ sipGo cfg L res := by
  induction L with
  | nil => simp at hmem
  | cons q rest ih =>
    intro res
    rcases List.mem_cons.mp hmem with rfl | hmem2
    · rw [sipGo_cons_small _ _ _ h hlen, sipGo_mono]
      simp
    · by_cases hq : pstrip q = []
      · rw [sipGo_cons_skip _ _ _ hq]
        exact ih hmem2 res
      · by_cases hql : (pstrip q).length ≤ cfg.max_chunk_chars
        · rw [sipGo_cons_small _ _ _ hq hql]
          exact ih hmem2 _
        · rw [sipGo_cons_big _ _ _ hq hql]
          exact ih hmem2 _

theorem sipGo_mem_big (cfg : SlideAwareChunker) {para : Str} {L : List Str}
    (hmem : para ∈ L) (h : pstrip para ≠ [])
    (hlen : ¬ (pstrip para).length ≤ cfg.max_chunk_chars)
    {q : Str} (hq : q ∈ split_preserving_bullets (pstrip para)) :
    ∀ res, q ∈ sipGo cfg L res := by
  induction L with
  | nil => simp at hmem
  | cons x rest ih =>
    intro res
    rcases List.mem_cons.mp hmem with rfl | hmem2
    · rw [sipGo_cons_big _ _ _ h hlen, sipGo_mono]
      simp [hq]
    · by_cases hx : pstrip x = []
      · rw [sipGo_cons_skip _ _ _ hx]
        exact ih hmem2 res
      · by_cases hxl : (pstrip x).length ≤ cfg.max_chunk_chars
        · rw [sipGo_cons_small _ _ _ hx hxl]
          exact ih hmem2 _
        · rw [sipGo_cons_big _ _ _ hx hxl]
          exact ih hmem2 _

theorem slsGo_nil_eq (cfg : SlideAwareChunker) (slide : SlideContent) (ctxPre : Str)
    (sid : Option Str) (aa : Bool) (current : Str) (idx : Nat) :
    slsGo cfg slide ctxPre sid aa [] current idx =
      if (pstrip current).isEmpty then []
      else [⟨idx, pstrip current, slide.slide_number, slide.title, sid, aa⟩] := rfl

theorem slsGo_cons_skip (cfg : SlideAwareChunker) (slide : SlideContent) (ctxPre : Str)
    (sid : Option Str) (aa : Bool) {para : Str} (rest : List Str) (current : Str)
    (idx : Nat) (h : pstrip para = []) :
    slsGo cfg slide ctxPre sid aa (para :: rest) current idx
      = slsGo cfg slide ctxPre sid aa rest current idx := by
  simp [slsGo, h]

theorem slsGo_cons_flush (cfg : SlideAwareChunker) (slide : SlideContent) (ctxPre : Str)
    (sid : Option Str) (aa : Bool) {para : Str} (rest : List Str) {current : Str}
    (idx : Nat) (h : pstrip para ≠ []) (hcur : current ≠ [])
    (hlen : (current ++ ['\n', '\n'] ++ pstrip para).length > cfg.max_chunk_chars) :
    slsGo cfg slide ctxPre sid aa (para :: rest) current idx
      = ⟨idx, pstrip current, slide.slide_number, slide.title, sid, aa⟩ ::
          slsGo cfg slide ctxPre sid aa rest
            (if cfg.include_title_in_chunk then ctxPre ++ pstrip para else pstrip para)
            (idx + 1) := by
  simp only [slsGo]
  rw [if_neg (by simp [h] : ¬ (pstrip para).isEmpty = true)]
  have hce : current.isEmpty = false := by simp [List.isEmpty_iff, hcur]
  simp only [hce, Bool.false_eq_true, if_false]
  rw [if_pos (by
    have hlen2 := hlen
    simp only [List.length_append, List.length_cons, List.length_nil] at hlen2
    simp [hcur, List.isEmpty_iff]
    omega)]

theorem slsGo_cons_acc (cfg : SlideAwareChunker) (slide : SlideContent) (ctxPre : Str)
    (sid : Option Str) (aa : Bool) {para : Str} (rest : List Str) {current : Str}
    (idx : Nat) (h : pstrip para ≠ []) (hcur : current ≠ [])
    (hlen : ¬ (current ++ ['\n', '\n'] ++ pstrip para).length > cfg.max_chunk_chars) :
    slsGo cfg slide ctxPre sid aa (para :: rest) current idx
      = slsGo cfg slide ctxPre sid aa rest (current ++ ['\n', '\n'] ++ pstrip para) idx := by
  simp only [slsGo]
  rw [if_neg (by simp [h] : ¬ (pstrip para).isEmpty = true)]
  have hce : current.isEmpty = false := by simp [List.isEmpty_iff, hcur]
  simp only [hce, Bool.false_eq_true, if_false]
  rw [if_neg (by
    have hlen2 := hlen
    simp only [List.length_append, List.length_cons, List.length_nil] at hlen2
    simp
    omega)]

theorem slsGo_cons_first (cfg : SlideAwareChunker) (slide : SlideContent) (ctxPre : Str)
    (sid : Option Str) (aa : Bool) {para : Str} (rest : List Str) (idx : Nat)
    (h : pstrip para ≠ []) :
    slsGo cfg slide ctxPre sid aa (para :: rest) [] idx
      = slsGo cfg slide ctxPre sid aa rest (pstrip para) idx := by
  simp only [slsGo]
  rw [if_neg (by simp [h] : ¬ (pstrip para).isEmpty = true)]
  simp

theorem slsGo_seg_persist (cfg : SlideAwareChunker) (slide : SlideContent) (ctxPre : Str)
    (sid : Option Str) (aa : Bool) :
    ∀ (ps : List Str) (current : Str) (idx : Nat) (a : Str),
      SubSeg a current → a ≠ [] → pstrip a = a →
      ∃ c ∈ slsGo cfg slide ctxPre sid aa ps current idx, SubSeg a c.text := by
  intro ps
  induction ps with
  | nil =>
    intro current idx a hseg hne hfix
    have hsp : SubSeg a (pstrip current) := seg_pstrip hseg hne hfix
    have hcne : pstrip current ≠ [] := by
      intro h0
      rw [h0] at hsp
      exact hne (seg_nil_right hsp)
    rw [slsGo_nil_eq, if_neg (by simp [List.isEmpty_iff, hcne])]
    exact ⟨⟨idx, pstrip current, slide.slide_number, slide.title, sid, aa⟩, by simp, hsp⟩
  | cons para rest ih =>
    intro current idx a hseg hne hfix
    by_cases hp : pstrip para = []
    · rw [slsGo_cons_skip _ _ _ _ _ _ _ _ hp]
      exact ih current idx a hseg hne hfix
    · have hcur : current ≠ [] := by
        intro h0
        rw [h0] at hseg
        exact hne (seg_nil_right hseg)
      by_cases hlen : (current ++ ['\n', '\n'] ++ pstrip para).length > cfg.max_chunk_chars
      · rw [slsGo_cons_flush _ _ _ _ _ _ _ hp hcur hlen]
        exact ⟨⟨idx, pstrip current, slide.slide_number, slide.title, sid, aa⟩,
          by simp, seg_pstrip hseg hne hfix⟩
      · rw [slsGo_cons_acc _ _ _ _ _ _ _ hp hcur hlen]
        exact ih _ idx a (seg_append_right _ (seg_append_right _ hseg)) hne hfix

theorem slsGo_piece_chunk (cfg : SlideAwareChunker) (slide : SlideContent) (ctxPre : Str)
    (sid : Option Str) (aa : Bool) :
    ∀ (ps : List Str) (current : Str) (idx : Nat) (p : Str),
      p ∈ ps → pstrip p ≠ [] →
      ∃ c ∈ slsGo cfg slide ctxPre sid aa ps current idx, SubSeg (pstrip p) c.text := by
  intro ps
  induction ps with
  | nil => intro current idx p hmem; simp at hmem
  | cons para rest ih =>
    intro current idx p hmem hpne
    rcases List.mem_cons.mp hmem with rfl | hmem2
    · by_cases hcur : current = []
      · subst hcur
        rw [slsGo_cons_first _ _ _ _ _ _ _ hpne]
        exact slsGo_seg_persist cfg slide ctxPre sid aa rest (pstrip p) idx (pstrip p)
          (seg_refl _) hpne (pstrip_idem p)
      · by_cases hlen : (current ++ ['\n', '\n'] ++ pstrip p).length > cfg.max_chunk_chars
        · rw [slsGo_cons_flush _ _ _ _ _ _ _ hpne hcur hlen]
          have hin : SubSeg (pstrip p)
              (if cfg.include_title_in_chunk then ctxPre ++ pstrip p else pstrip p) := by
            by_cases ht : cfg.include_title_in_chunk
            · rw [if_pos ht]; exact seg_of_append_right _ _
            · rw [if_neg ht]; exact seg_refl _
          obtain ⟨c, hc, hcs⟩ := slsGo_seg_persist cfg slide ctxPre sid aa rest _ (idx + 1)
            (pstrip p) hin hpne (pstrip_idem p)
          exact ⟨c, by simp [hc], hcs⟩
        · rw [slsGo_cons_acc _ _ _ _ _ _ _ hpne hcur hlen]
          exact slsGo_seg_persist cfg slide ctxPre sid aa rest _ idx (pstrip p)
            (seg_of_append_right _ _) hpne (pstrip_idem p)
    · by_cases hp : pstrip para = []
      · rw [slsGo_cons_skip _ _ _ _ _ _ _ _ hp]
        exact ih current idx p hmem2 hpne
      · by_cases hcur : current = []
        · subst hcur
          rw [slsGo_cons_first _ _ _ _ _ _ _ hp]
          exact ih _ idx p hmem2 hpne
        · by_cases hlen : (current ++ ['\n', '\n'] ++ pstrip para).length > cfg.max_chunk_chars
          · rw [slsGo_cons_flush _ _ _ _ _ _ _ hp hcur hlen]
            obtain ⟨c, hc, hcs⟩ := ih
              (if cfg.include_title_in_chunk then ctxPre ++ pstrip para else pstrip para)
              (idx + 1) p hmem2 hpne
            exact ⟨c, by simp [hc], hcs⟩
          · rw [slsGo_cons_acc _ _ _ _ _ _ _ hp hcur hlen]
            exact ih _ idx p hmem2 hpne

theorem pfx_reset (b : Bool) (ctxPre x : Str) :
    (if b then ctxPre ++ x else x) = (if b then ctxPre else []) ++ x := by
  cases b <;> simp

theorem slsGo_cases (cfg : SlideAwareChunker) (slide : SlideContent) (ctxPre : Str)
    (sid : Option Str) (aa : Bool) (PS : List Str) :
    ∀ (ps : List Str) (current : Str) (idx : Nat),
      (∀ p ∈ ps, p ∈ PS) →
      ((current ≠ [] ∧ current.length ≤ cfg.max_chunk_chars) ∨
        current = (if cfg.include_title_in_chunk then ctxPre else []) ∨
        ∃ p ∈ PS,
          current = (if cfg.include_title_in_chunk then ctxPre else []) ++ pstrip p) →
      ∀ c ∈ slsGo cfg slide ctxPre sid aa ps current idx,
        c.text.length ≤ cfg.max_chunk_chars ∨
        c.text = pstrip (if cfg.include_title_in_chunk then ctxPre else []) ∨
        ∃ p ∈ PS,
          c.text = pstrip ((if cfg.include_title_in_chunk then ctxPre else []) ++ pstrip p) := by
  intro ps
  induction ps with
  | nil =>
    intro current idx hsub hinv c hc
    rw [slsGo_nil_eq] at hc
    by_cases hcne : (pstrip current).isEmpty = true
    · rw [if_pos hcne] at hc
      simp at hc
    · rw [if_neg hcne] at hc
      simp only [List.mem_singleton] at hc
      subst hc
      rcases hinv with ⟨_, hlen⟩ | hpfx | ⟨p, hp, hcur⟩
      · exact Or.inl (le_trans (pstrip_length_le current) hlen)
      · exact Or.inr (Or.inl (by rw [hpfx]))
      · exact Or.inr (Or.inr ⟨p, hp, by rw [hcur]⟩)
  | cons para rest ih =>
    intro current idx hsub hinv c hc
    by_cases hp : pstrip para = []
    · rw [slsGo_cons_skip _ _ _ _ _ _ _ _ hp] at hc
      exact ih current idx (fun x hx => hsub x (by simp [hx])) hinv c hc
    · by_cases hcur : current = []
      · subst hcur
        rw [slsGo_cons_first _ _ _ _ _ _ _ hp] at hc
        have hpfx_nil : (if cfg.include_title_in_chunk then ctxPre else []) = ([] : Str) := by
          rcases hinv with ⟨hne, _⟩ | hpfx | ⟨p, _, hcur2⟩
          · exact absurd rfl hne
          · exact hpfx.symm
          · rcases List.append_eq_nil.mp hcur2.symm with ⟨h1, _⟩
            exact h1
        refine ih _ idx (fun x hx => hsub x (by simp [hx])) ?_ c hc
        exact Or.inr (Or.inr ⟨para, hsub para (by simp), by rw [hpfx_nil]; simp⟩)
      · by_cases hlen : (current ++ ['\n', '\n'] ++ pstrip para).length > cfg.max_chunk_chars
        · rw [slsGo_cons_flush _ _ _ _ _ _ _ hp hcur hlen] at hc
          rcases List.mem_cons.mp hc with rfl | hc2
          · rcases hinv with ⟨_, hlen2⟩ | hpfx | ⟨p, hpp, hcur2⟩
            · exact Or.inl (le_trans (pstrip_length_le current) hlen2)
            · exact Or.inr (Or.inl (by rw [hpfx]))
            · exact Or.inr (Or.inr ⟨p, hpp, by rw [hcur2]⟩)
          · refine ih _ (idx + 1) (fun x hx => hsub x (by simp [hx])) ?_ c hc2
            refine Or.inr (Or.inr ⟨para, hsub para (by simp), ?_⟩)
            rw [pfx_reset]
        · rw [slsGo_cons_acc _ _ _ _ _ _ _ hp hcur hlen] at hc
          refine ih _ idx (fun x hx => hsub x (by simp [hx])) ?_ c hc
          refine Or.inl ⟨by simp, ?_⟩
          simp only [List.length_append, List.length_cons, List.length_nil] at hlen ⊢
          omega

theorem chunk_slide_cases (cfg : SlideAwareChunker) (slide : SlideContent)
    (start : Nat) (sid : Option Str) (aa : Bool) :
    ∀ c ∈ chunk_slide cfg slide start sid aa,
      c.text.length ≤ cfg.max_chunk_chars ∨
      c.text = pstrip (build_context_pre slide) ∨
      ∃ p ∈ split_into_paragraphs cfg slide.text,
        c.text = pstrip
          ((if cfg.include_title_in_chunk then build_context_pre slide else []) ++ pstrip p) := by
  intro c hc
  simp only [chunk_slide] at hc
  by_cases hempty : (pstrip slide.text).isEmpty = true
  · rw [if_pos hempty] at hc
    by_cases ht : optTruthy slide.title = true
    · rw [if_pos ht] at hc
      simp only [List.mem_singleton] at hc
      subst hc
      exact Or.inr (Or.inl rfl)
    · rw [if_neg ht] at hc
      simp at hc
  · rw [if_neg hempty] at hc
    by_cases hfit :
        (if cfg.include_title_in_chunk then build_context_pre slide ++ pstrip slide.text
          else pstrip slide.text).length ≤ cfg.max_chunk_chars
    · rw [if_pos hfit] at hc
      simp only [List.mem_singleton] at hc
      subst hc
      exact Or.inl hfit
    · rw [if_neg hfit] at hc
      have := slsGo_cases cfg slide (build_context_pre slide) sid aa
        (split_into_paragraphs cfg slide.text)
        (split_into_paragraphs cfg slide.text)
        (if cfg.include_title_in_chunk then build_context_pre slide else []) start
        (fun p hp => hp) (Or.inr (Or.inl rfl)) c hc
      rcases this with h1 | h2 | h3
      · exact Or.inl h1
      · by_cases hinc : cfg.include_title_in_chunk = true
        · rw [hinc] at h2
          simp only [if_true] at h2
          exact Or.inr (Or.inl h2)
        · simp only [Bool.not_eq_true] at hinc
          rw [hinc] at h2
          simp only [Bool.false_eq_true, if_false] at h2
          refine Or.inl ?_
          rw [h2]
          simp [pstrip]
      · exact Or.inr (Or.inr h3)

theorem chunkSlidesGo_src (cfg : SlideAwareChunker) (sid : Option Str) (aa : Bool) :
    ∀ (slides : List SlideContent) (idx0 : Nat) (c : ChunkData),
      c ∈ chunkSlidesGo cfg sid aa slides idx0 →
      ∃ slide ∈ slides, ∃ i, c ∈ chunk_slide cfg slide i sid aa := by
  intro slides
  induction slides with
  | nil => intro idx0 c hc; simp [chunkSlidesGo] at hc
  | cons s rest ih =>
    intro idx0 c hc
    simp only [chunkSlidesGo, List.mem_append] at hc
    rcases hc with hc | hc
    · exact ⟨s, by simp, idx0, hc⟩
    · obtain ⟨slide, hs, i, hci⟩ := ih _ c hc
      exact ⟨slide, by simp [hs], i, hci⟩

theorem chunkSlidesGo_mem_of (cfg : SlideAwareChunker) (sid : Option Str) (aa : Bool)
    (P : Str → Prop) :
    ∀ (slides : List SlideContent) (idx0 : Nat) (slide : SlideContent),
      slide ∈ slides →
      (∀ i, ∃ c ∈ chunk_slide cfg slide i sid aa, P c.text) →
      ∃ c ∈ chunkSlidesGo cfg sid aa slides idx0, P c.text := by
  intro slides
  induction slides with
  | nil => intro idx0 slide hs; simp at hs
  | cons s rest ih =>
    intro idx0 slide hs hP
    rcases List.mem_cons.mp hs with rfl | hs2
    · obtain ⟨c, hc, hPc⟩ := hP idx0
      exact ⟨c, by simp [chunkSlidesGo, hc], hPc⟩
    · obtain ⟨c, hc, hPc⟩ :=
        ih (idx0 + (chunk_slide cfg s idx0 sid aa).length) slide hs2 hP
      exact ⟨c, by simp [chunkSlidesGo, hc], hPc⟩

theorem seg_pstrip_line {l t : Str} (hl : pstrip l ≠ []) (h : SubSeg l t) :
    SubSeg (pstrip l) (pstrip t) :=
  seg_pstrip (seg_trans (seg_pstrip_self l) h) hl (pstrip_idem l)

/-- C6: for every slide whose body contains a contiguous run of bullet
lines (consecutive lines of the slide text, each non-blank and recognized
by `_is_bullet_line` after stripping), the chunker emits one chunk whose
text contains every line of the run — no chunk boundary falls strictly
between two consecutive bullet lines. -/
theorem bullet_run_single_chunk (cfg : SlideAwareChunker) (slides : List SlideContent)
    (sid : Option Str) (aa : Bool) (slide : SlideContent) (R : List Str)
    (hs : slide ∈ slides)
    (hblock : Block R (linesOf slide.text))
    (hRne : R ≠ [])
    (hR : ∀ l ∈ R, pstrip l ≠ [] ∧ is_bullet_line (pstrip l) = true) :
    ∃ c ∈ chunk_slides cfg slides sid aa, ∀ l ∈ R, SubSeg (pstrip l) c.text := by
  refine chunkSlidesGo_mem_of cfg sid aa (fun t => ∀ l ∈ R, SubSeg (pstrip l) t)
    slides 0 slide hs ?_
  intro i
  obtain ⟨l0, hl0⟩ := List.exists_mem_of_ne_nil R hRne
  simp only [chunk_slide]
  by_cases hempty : (pstrip slide.text).isEmpty = true
  · exfalso
    rw [List.isEmpty_iff] at hempty
    have hseg := seg_pstrip_line (hR l0 hl0).1
      (seg_of_mem_linesOf (block_mem hblock hl0))
    rw [hempty] at hseg
    exact (hR l0 hl0).1 (seg_nil_right hseg)
  · rw [if_neg hempty]
    by_cases hfit :
        (if cfg.include_title_in_chunk then build_context_pre slide ++ pstrip slide.text
          else pstrip slide.text).length ≤ cfg.max_chunk_chars
    · rw [if_pos hfit]
      refine ⟨⟨i,
        (if cfg.include_title_in_chunk then build_context_pre slide ++ pstrip slide.text
          else pstrip slide.text), slide.slide_number, slide.title, sid, aa⟩, by simp, ?_⟩
      intro l hl
      have hseg := seg_pstrip_line (hR l hl).1
        (seg_of_mem_linesOf (block_mem hblock hl))
      by_cases hinc : cfg.include_title_in_chunk = true
      · rw [hinc]
        simp only [if_true]
        exact seg_append_left _ hseg
      · simp only [Bool.not_eq_true] at hinc
        rw [hinc]
        simp only [Bool.false_eq_true, if_false]
        exact hseg
    · rw [if_neg hfit]
      have hRnn : ∀ l ∈ R, l ≠ ([] : Str) := by
        intro l hl h0
        exact (hR l hl).1 (by rw [h0]; rfl)
      obtain ⟨para, hpara, hbp⟩ := block_para hblock hRnn
      by_cases hps : pstrip para = []
      · exfalso
        have hseg := seg_pstrip_line (hR l0 hl0).1
          (seg_of_mem_linesOf (block_mem hbp hl0))
        rw [hps] at hseg
        exact (hR l0 hl0).1 (seg_nil_right hseg)
      · by_cases hplen : (pstrip para).length ≤ cfg.max_chunk_chars
        · have hqmem : pstrip para ∈ split_into_paragraphs cfg slide.text := by
            simp only [split_into_paragraphs]
            exact sipGo_mem_small cfg hpara hps hplen []
          obtain ⟨c, hc, hcs⟩ := slsGo_piece_chunk cfg slide (build_context_pre slide)
            sid aa (split_into_paragraphs cfg slide.text)
            (if cfg.include_title_in_chunk then build_context_pre slide else []) i
            (pstrip para) hqmem (by rw [pstrip_idem]; exact hps)
          refine ⟨c, by simpa [split_long_slide] using hc, ?_⟩
          intro l hl
          have h1 : SubSeg (pstrip l) (pstrip para) := seg_pstrip_line (hR l hl).1
            (seg_of_mem_linesOf (block_mem hbp hl))
          have h2 : SubSeg (pstrip l) (pstrip (pstrip para)) := by
            rw [pstrip_idem]
            exact h1
          exact seg_trans h2 hcs
        · obtain ⟨A, B, hAB⟩ := hbp
          obtain ⟨piece, hpm, hpseg⟩ := spb_block hR hRne A B [] []
          have hpm1 : piece ∈ split_preserving_bullets para := by
            rw [split_preserving_bullets, hAB]
            exact hpm
          have hpm2 : piece ∈ split_preserving_bullets (pstrip para) := by
            rw [spb_pstrip]
            exact hpm1
          have hqmem : piece ∈ split_into_paragraphs cfg slide.text := by
            simp only [split_into_paragraphs]
            exact sipGo_mem_big cfg hpara hps hplen hpm2 []
          have hl0seg : SubSeg (pstrip l0) piece :=
            seg_trans (seg_of_mem_joinSep ['\n'] (List.mem_map_of_mem pstrip hl0)) hpseg
          have hpieceps : pstrip piece ≠ [] := by
            intro h0
            have := seg_pstrip hl0seg (hR l0 hl0).1 (pstrip_idem l0)
            rw [h0] at this
            exact (hR l0 hl0).1 (seg_nil_right this)
          obtain ⟨c, hc, hcs⟩ := slsGo_piece_chunk cfg slide (build_context_pre slide)
            sid aa (split_into_paragraphs cfg slide.text)
            (if cfg.include_title_in_chunk then build_context_pre slide else []) i
            piece hqmem hpieceps
          refine ⟨c, by simpa [split_long_slide] using hc, ?_⟩
          intro l hl
          have hlseg : SubSeg (pstrip l) piece :=
            seg_trans (seg_of_mem_joinSep ['\n'] (List.mem_map_of_mem pstrip hl)) hpseg
          have h2 : SubSeg (pstrip l) (pstrip piece) :=
            seg_pstrip hlseg (hR l hl).1 (pstrip_idem l)
          exact seg_trans h2 hcs

def c6slide : SlideContent := ⟨1, none, ['•', ' ', 'a', '\n', '•', ' ', 'b'], []⟩

def c6run : List Str := [['•', ' ', 'a'], ['•', ' ', 'b']]

theorem bullet_run_single_chunk_witness :
    ∃ c ∈ chunk_slides defaultChunker [c6slide] none true,
      ∀ l ∈ c6run, SubSeg (pstrip l) c.text :=
  bullet_run_single_chunk defaultChunker [c6slide] none true c6slide c6run
    (by simp) (by exact ⟨[], [], by decide⟩) (by decide) (by decide)

def c5cfg : SlideAwareChunker := ⟨10, 10, true⟩

def c5slide : SlideContent := ⟨1, none, List.replicate 16 'a', []⟩

/-- C5 (counterexample): with a 10/10 window and a single 16-character
line, `chunk_slides` emits chunks of lengths 9 and 27 — the second chunk
exceeds the configured max window, and the first (non-final) chunk falls
below the configured min window. -/
theorem chunk_window_counterexample :
    (chunk_slides c5cfg [c5slide] none true).map (fun c => c.text.length) = [9, 27] ∧
    ¬ (∀ c ∈ chunk_slides c5cfg [c5slide] none true,
        c.text.length ≤ c5cfg.max_chunk_chars) ∧
    (∃ c ∈ chunk_slides c5cfg [c5slide] none true,
      c.chunk_index + 1 < (chunk_slides c5cfg [c5slide] none true).length ∧
      c.text.length < c5cfg.min_chunk_chars) := by
  decide

/-- C5 (amended): every chunk emitted by `chunk_slides` has text length at
most the configured max window, unless it is the stripped slide-context
prefix alone or the (optional) context prefix joined with a single
indivisible paragraph piece that itself overflows the window; the min
window is never enforced, so non-final chunks of a slide may fall below
it. -/
theorem chunk_window_amended (cfg : SlideAwareChunker) (slides : List SlideContent)
    (sid : Option Str) (aa : Bool) :
    ∀ c ∈ chunk_slides cfg slides sid aa,
      c.text.length ≤ cfg.max_chunk_chars ∨
      ∃ slide ∈ slides,
        c.text = pstrip (build_context_pre slide) ∨
        ∃ p ∈ split_into_paragraphs cfg slide.text,
          c.text = pstrip
            ((if cfg.include_title_in_chunk then build_context_pre slide else []) ++
              pstrip p) := by
  intro c hc
  obtain ⟨slide, hs, i, hci⟩ :=
    chunkSlidesGo_src cfg sid aa slides 0 c (by simpa [chunk_slides] using hc)
  rcases chunk_slide_cases cfg slide i sid aa c hci with h1 | h2 | h3
  · exact Or.inl h1
  · exact Or.inr ⟨slide, hs, Or.inl h2⟩
  · exact Or.inr ⟨slide, hs, Or.inr h3⟩

def c5small : SlideContent := ⟨1, none, ['h', 'i'], []⟩

def c5chunk : ChunkData :=
  ⟨0, ['[', 'S', 'l', 'i', 'd', 'e', ' ', '1', ']', '\n', '\n', 'h', 'i'], 1, none, none, true⟩

theorem chunk_window_amended_witness :
    c5chunk.text.length ≤ defaultChunker.max_chunk_chars ∨
    ∃ slide ∈ [c5small],
      c5chunk.text = pstrip (build_context_pre slide) ∨
      ∃ p ∈ split_into_paragraphs defaultChunker slide.text,
        c5chunk.text = pstrip
          ((if defaultChunker.include_title_in_chunk then build_context_pre slide else []) ++
            pstrip p) :=
  chunk_window_amended defaultChunker [c5small] none true c5chunk (by decide)
